import Mathlib

/-! # hitron_coda: transport helpers and the byte-size codec

A shallow embedding of `hitron.go` (package `hitron`) and of the parts of the
Go standard library it calls (`strings`, `strconv`, IEEE-754 binary64
arithmetic), followed by the properties proved about it.

Conventions of the embedding

* A Go `string` is a `List Char` (the code points of a valid UTF-8 string);
  `len` is the UTF-8 byte length and byte indexing is modelled on that
  encoding.
* `int64` and `uint64` are `Int` / `Nat` with explicit wrap-around.
* `float64` is `Float64`: a sign, and for finite values a dyadic number
  `m * 2 ^ e`; every arithmetic operation rounds its exact result to the
  nearest representable value, ties to even.
* A conversion `int64(f)` of a value that does not fit is
  implementation-dependent in Go; the embedding takes the platform's choice
  as a parameter `Arch`.
-/

namespace Hitron

/-! ## Go strings -/

/-- A Go string, as its sequence of code points. -/
abbrev GoString := List Char

/-- Number of bytes of the UTF-8 encoding of one code point. -/
def runeLen (c : Char) : Nat :=
  if c.toNat < 0x80 then 1
  else if c.toNat < 0x800 then 2
  else if c.toNat < 0x10000 then 3
  else 4

/-- Go `len(s)`: the length of the string in bytes. -/
def len : GoString → Nat
  | [] => 0
  | c :: s => runeLen c + len s

/-- Last byte of the UTF-8 encoding of one code point. -/
def lastByteOf (c : Char) : Nat :=
  if c.toNat < 0x80 then c.toNat else 0x80 + c.toNat % 0x40

/-- First byte of the UTF-8 encoding of one code point. -/
def firstByteOf (c : Char) : Nat :=
  if c.toNat < 0x80 then c.toNat
  else if c.toNat < 0x800 then 0xC0 + c.toNat / 0x40
  else if c.toNat < 0x10000 then 0xE0 + c.toNat / 0x1000
  else 0xF0 + c.toNat / 0x40000

/-- Go `s[len(s)-1]` for a non-empty string (`0` stands in for the empty one,
which the callers exclude). -/
def lastByte (s : GoString) : Nat :=
  match s.getLast? with
  | some c => lastByteOf c
  | none => 0

/-- Go `s[0]` for a non-empty string. -/
def firstByte (s : GoString) : Nat :=
  match s with
  | c :: _ => firstByteOf c
  | [] => 0

/-- Go `unicode.IsSpace`. -/
def isSpace (c : Char) : Bool :=
  let n := c.toNat
  (0x09 ≤ n && n ≤ 0x0D) || n == 0x20 || n == 0x85 || n == 0xA0 || n == 0x1680
    || (0x2000 ≤ n && n ≤ 0x200A) || n == 0x2028 || n == 0x2029 || n == 0x202F
    || n == 0x205F || n == 0x3000

/-- Go `strings.TrimSpace`. -/
def trimSpace (s : GoString) : GoString :=
  (s.dropWhile isSpace).rdropWhile isSpace

/-- Go `strings.HasSuffix`. -/
def hasSuffix (s suffix : GoString) : Bool :=
  suffix.isSuffixOf s

/-- Go `strings.TrimSuffix`. -/
def trimSuffix (s suffix : GoString) : GoString :=
  if hasSuffix s suffix then s.take (s.length - suffix.length) else s

/-! ## Machine integers -/

/-- Wrap an integer to the `int64` range (two's complement). -/
def wrapInt64 (x : Int) : Int :=
  (x + 2 ^ 63) % 2 ^ 64 - 2 ^ 63

/-- Largest `uint64`. -/
def maxUint64 : Nat := 2 ^ 64 - 1

/-- Largest `int64`. -/
def maxInt64 : Int := 2 ^ 63 - 1

/-- Smallest `int64`. -/
def minInt64 : Int := -(2 ^ 63)

/-! ## `strconv.ParseInt` -/

/-- The two kinds of `*strconv.NumError` the parsers report. -/
inductive NumError
  | errSyntax
  | errRange
  deriving DecidableEq

/-- Is the character an ASCII decimal digit. -/
def isDigit (c : Char) : Bool :=
  '0'.toNat ≤ c.toNat && c.toNat ≤ '9'.toNat

/-- Value of an ASCII decimal digit. -/
def digitVal (c : Char) : Nat :=
  c.toNat - '0'.toNat

/-- The digit loop of `strconv.ParseUint(s, 10, 64)`, from accumulator `n`.
Base 10 accepts no underscore; a letter is a digit at least 10 and so a
syntax error like any other byte. -/
def parseUintLoop : GoString → Nat → Nat × Option NumError
  | [], n => (n, none)
  | c :: s, n =>
    if !isDigit c then (0, some .errSyntax)
    else if n ≥ maxUint64 / 10 + 1 then (maxUint64, some .errRange)
    else
      let n1 := n * 10 + digitVal c
      if n1 > maxUint64 then (maxUint64, some .errRange)
      else parseUintLoop s n1

/-- Go `strconv.ParseUint(s, 10, 64)`: the value and the error returned. -/
def parseUint (s : GoString) : Nat × Option NumError :=
  if s = [] then (0, some .errSyntax) else parseUintLoop s 0

/-- Go `strconv.ParseInt(s, 10, 64)`: the value and the error returned. -/
def parseInt (s : GoString) : Int × Option NumError :=
  match s with
  | [] => (0, some .errSyntax)
  | c :: rest =>
    let neg := c = '-'
    let body := if c = '+' ∨ c = '-' then rest else s
    match parseUint body with
    | (_, some .errSyntax) => (0, some .errSyntax)
    | (un, _) =>
      let cutoff : Nat := 2 ^ 63
      if !neg && un ≥ cutoff then ((cutoff : Int) - 1, some .errRange)
      else if neg && un > cutoff then (-(cutoff : Int), some .errRange)
      else
        let n := wrapInt64 un
        (if neg then wrapInt64 (-n) else n, none)

/-- Source `atoi64`: the value of `ParseInt`, its error dropped. -/
def atoi64 (s : GoString) : Int :=
  (parseInt (trimSpace s)).1

/-! ## IEEE-754 binary64 -/

/-- A `float64`: a signed dyadic number `m * 2 ^ e`, an infinity, or NaN.
Operations only ever build finite values through `roundFloat64`, so a finite
value met at run time is a representable one. -/
inductive Float64
  | finite (neg : Bool) (m : Nat) (e : Int)
  | inf (neg : Bool)
  | nan
  deriving DecidableEq

/-- Loop of `ilog2`, bounded by `fuel`. -/
def ilog2Aux : Nat → Nat → Nat
  | 0, _ => 0
  | fuel + 1, n => if n < 2 then 0 else 1 + ilog2Aux fuel (n / 2)

/-- Floor of the binary logarithm of `n ≥ 1`. -/
def ilog2 (n : Nat) : Nat := ilog2Aux n n

/-- Floor of the binary logarithm of the fraction `a / b`, both positive. -/
def fracLog2 (a b : Nat) : Int :=
  let e0 : Int := (ilog2 a : Int) - (ilog2 b : Int)
  if b * 2 ^ e0.toNat ≤ a * 2 ^ (-e0).toNat then e0 else e0 - 1

/-- The integer nearest to `a / b`, ties to the even one. -/
def rneDiv (a b : Nat) : Nat :=
  let q := a / b
  let r := a % b
  if 2 * r < b then q
  else if b < 2 * r then q + 1
  else if q % 2 = 0 then q else q + 1

/-- Round the exact value `a / b` (with `b > 0`) to binary64, nearest-even:
53 significant bits, least exponent `-1074` (subnormals), overflow to
infinity when the rounded value `m * 2 ^ p` reaches `2 ^ 1024`. -/
def roundFloat64 (neg : Bool) (a b : Nat) : Float64 :=
  if a = 0 then .finite neg 0 0
  else
    let p : Int := max (fracLog2 a b - 52) (-1074)
    let m := rneDiv (a * 2 ^ (-p).toNat) (b * 2 ^ p.toNat)
    if 971 < p ∨ (p = 971 ∧ 2 ^ 53 ≤ m) then .inf neg else .finite neg m p

namespace Float64

/-- Positive zero. -/
def zero : Float64 := .finite false 0 0

/-- Conversion `float64(n)` of an unsigned integer (also of an untyped
integer constant). -/
def ofNat (n : Nat) : Float64 := roundFloat64 false n 1

/-- IEEE multiplication. -/
def mul : Float64 → Float64 → Float64
  | .nan, _ => .nan
  | _, .nan => .nan
  | .inf n1, .inf n2 => .inf (xor n1 n2)
  | .inf n1, .finite n2 m _ => if m = 0 then .nan else .inf (xor n1 n2)
  | .finite n1 m _, .inf n2 => if m = 0 then .nan else .inf (xor n1 n2)
  | .finite n1 m1 e1, .finite n2 m2 e2 =>
    roundFloat64 (xor n1 n2) (m1 * m2 * 2 ^ (e1 + e2).toNat) (2 ^ (-(e1 + e2)).toNat)

/-- IEEE division. -/
def div : Float64 → Float64 → Float64
  | .nan, _ => .nan
  | _, .nan => .nan
  | .inf _, .inf _ => .nan
  | .inf n1, .finite n2 _ _ => .inf (xor n1 n2)
  | .finite n1 _ _, .inf n2 => .finite (xor n1 n2) 0 0
  | .finite n1 m1 e1, .finite n2 m2 e2 =>
    if m2 = 0 then (if m1 = 0 then .nan else .inf (xor n1 n2))
    else roundFloat64 (xor n1 n2) (m1 * 2 ^ (e1 - e2).toNat) (m2 * 2 ^ (e2 - e1).toNat)

/-- Truncation toward zero of a finite value. -/
def trunc? : Float64 → Option Int
  | .finite neg m e =>
    let t : Int := ((m * 2 ^ e.toNat / 2 ^ (-e).toNat : Nat) : Int)
    some (if neg then -t else t)
  | _ => none

/-- The exact value of a finite `float64` (zero for the others). -/
def toRat : Float64 → ℚ
  | .finite neg m e => (if neg then -1 else 1) * (m : ℚ) * (2 : ℚ) ^ e
  | _ => 0

end Float64

/-- The platform's result for `int64(f)` when `f` does not fit (Go leaves it
implementation-dependent); it is some `int64`. -/
structure Arch where
  cvt : Float64 → Int
  cvt_range : ∀ x, minInt64 ≤ cvt x ∧ cvt x ≤ maxInt64

/-- The amd64 behaviour: every out-of-range conversion gives `-2^63`. -/
def amd64 : Arch where
  cvt := fun _ => minInt64
  cvt_range := fun _ => by simp [minInt64, maxInt64]

/-- Conversion `int64(f)`. -/
def toInt64 (A : Arch) (x : Float64) : Int :=
  match x.trunc? with
  | some t => if minInt64 ≤ t ∧ t ≤ maxInt64 then t else A.cvt x
  | none => A.cvt x

/-! ## Decimal rendering -/

/-- The character of a decimal digit. -/
def digitChar (d : Nat) : Char := Char.ofNat ('0'.toNat + d)

/-- Loop of `decimal`, bounded by `fuel`. -/
def decimalAux : Nat → Nat → GoString → GoString
  | 0, _, acc => acc
  | fuel + 1, n, acc =>
    let acc1 := digitChar (n % 10) :: acc
    if n < 10 then acc1 else decimalAux fuel (n / 10) acc1

/-- The decimal numeral of `n`, without leading zeros (`"0"` for zero). -/
def decimal (n : Nat) : GoString := decimalAux (n + 1) n []

/-- The last `k` decimal digits of `n`, zero-padded. -/
def decimalPad : Nat → Nat → GoString
  | 0, _ => []
  | k + 1, n => decimalPad k (n / 10) ++ [digitChar (n % 10)]

/-- Go `strconv.FormatFloat(x, 'f', prec, 64)`: the exact value rounded to
`prec` decimals, nearest-even. -/
def formatFloatF (x : Float64) (prec : Nat) : GoString :=
  match x with
  | .nan => "NaN".toList
  | .inf neg => if neg then "-Inf".toList else "+Inf".toList
  | .finite neg m e =>
    let t := rneDiv (m * 10 ^ prec * 2 ^ e.toNat) (2 ^ (-e).toNat)
    (if neg then ['-'] else []) ++ decimal (t / 10 ^ prec) ++
      (if prec = 0 then [] else '.' :: decimalPad prec (t % 10 ^ prec))

/-! ## `strconv.ParseFloat` -/

/-- ASCII lower-casing of an upper-case letter, as `special` does it. -/
def lowerAZ (c : Char) : Char :=
  if 'A'.toNat ≤ c.toNat ∧ c.toNat ≤ 'Z'.toNat then Char.ofNat (c.toNat + 32) else c

/-- Go `commonPrefixLenIgnoreCase(s, word)`, for a lower-case `word`. -/
def commonPrefixLenIgnoreCase : GoString → GoString → Nat
  | c :: s, d :: word => if lowerAZ c = d then 1 + commonPrefixLenIgnoreCase s word else 0
  | _, _ => 0

/-- Does the string start with a minus sign. -/
def isNegSign : GoString → Bool
  | '-' :: _ => true
  | _ => false

/-- The string without its leading sign, if it has one. -/
def dropSign : GoString → GoString
  | '+' :: r => r
  | '-' :: r => r
  | s => s

/-- Does the string start with the marker `0x` of a hexadecimal mantissa,
with at least one byte after it. -/
def hexMarker : GoString → Bool
  | '0' :: x :: _ :: _ => x = 'x' ∨ x = 'X'
  | _ => false

/-- Go `special`: the infinities and NaN, with what is left of the string. -/
def special (s : GoString) : Option (Float64 × GoString) :=
  let signed := match s with
    | '+' :: _ => true
    | '-' :: _ => true
    | _ => false
  let neg := isNegSign s
  let body := dropSign s
  let n := commonPrefixLenIgnoreCase body "infinity".toList
  let n := if 3 < n ∧ n < 8 then 3 else n
  if n = 3 ∨ n = 8 then some (.inf neg, body.drop n)
  else if !signed && commonPrefixLenIgnoreCase s "nan".toList = 3 then some (.nan, s.drop 3)
  else none

/-- Is the character a hexadecimal letter digit. -/
def isHexLetter (c : Char) : Bool :=
  ('a'.toNat ≤ c.toNat && c.toNat ≤ 'f'.toNat) || ('A'.toNat ≤ c.toNat && c.toNat ≤ 'F'.toNat)

/-- Value of a hexadecimal letter digit. -/
def hexLetterVal (c : Char) : Nat :=
  if 'a'.toNat ≤ c.toNat then c.toNat - 'a'.toNat + 10 else c.toNat - 'A'.toNat + 10

/-- What the mantissa loop of `readFloat` has seen. -/
structure Mantissa where
  value : Nat
  fracDigits : Nat
  sawDot : Bool
  sawDigits : Bool
  underscores : Bool
  deriving DecidableEq

/-- The mantissa loop of `readFloat`: digits, at most one point, and
underscores; it stops at the first other byte and returns the rest. -/
def scanMantissa (hex : Bool) : GoString → Mantissa → Mantissa × GoString
  | [], st => (st, [])
  | c :: s, st =>
    if c = '_' then scanMantissa hex s { st with underscores := true }
    else if c = '.' then
      if st.sawDot then (st, c :: s) else scanMantissa hex s { st with sawDot := true }
    else if isDigit c then
      scanMantissa hex s { st with
        sawDigits := true
        value := st.value * (if hex then 16 else 10) + digitVal c
        fracDigits := st.fracDigits + (if st.sawDot then 1 else 0) }
    else if hex && isHexLetter c then
      scanMantissa hex s { st with
        sawDigits := true
        value := st.value * 16 + hexLetterVal c
        fracDigits := st.fracDigits + (if st.sawDot then 1 else 0) }
    else (st, c :: s)

/-- The exponent digit loop of `readFloat`; the exponent stops growing from
10000. Returns the exponent, whether an underscore was met, and the rest. -/
def scanExpDigits : GoString → Nat → Bool → Nat × Bool × GoString
  | [], e, u => (e, u, [])
  | c :: s, e, u =>
    if c = '_' then scanExpDigits s e true
    else if isDigit c then scanExpDigits s (if e < 10000 then e * 10 + digitVal c else e) u
    else (e, u, c :: s)

/-- Go `underscoreOK`, the loop over the number proper; `saw` is the kind of
the last byte: `'0'` digit, `'_'` underscore, `'!'` other, `'^'` none yet. -/
def underscoreLoop (hex : Bool) : GoString → Char → Bool
  | [], saw => saw != '_'
  | c :: s, saw =>
    if isDigit c || (hex && isHexLetter c) then underscoreLoop hex s '0'
    else if c = '_' then (if saw != '0' then false else underscoreLoop hex s '_')
    else if saw = '_' then false
    else underscoreLoop hex s '!'

/-- Go `underscoreOK`: underscores only between digits, or after a base
marker. -/
def underscoreOK (s : GoString) : Bool :=
  let s1 := dropSign s
  match s1 with
  | '0' :: x :: r =>
    if x = 'b' ∨ x = 'B' ∨ x = 'o' ∨ x = 'O' then underscoreLoop false r '0'
    else if x = 'x' ∨ x = 'X' then underscoreLoop true r '0'
    else underscoreLoop false s1 '^'
  | _ => underscoreLoop false s1 '^'

/-- A number read by `readFloat`: its value is
`mantissa * base ^ exp` with base 10, or `mantissa * 2 ^ exp` for a
hexadecimal one. -/
structure ReadFloat where
  neg : Bool
  hex : Bool
  mantissa : Nat
  exp : Int
  deriving DecidableEq

/-- Go `readFloat`, required to consume the whole string. -/
def readFloat (s : GoString) : Option ReadFloat :=
  let neg := isNegSign s
  let s1 := dropSign s
  let hex := hexMarker s1
  let s2 := if hex then s1.drop 2 else s1
  let (st, rest) := scanMantissa hex s2 ⟨0, 0, false, false, false⟩
  if !st.sawDigits then none
  else
    let dp : Int := -((if hex then 4 else 1) * st.fracDigits : Nat)
    match rest with
    | [] => if hex then none else
      if st.underscores && !underscoreOK s then none
      else some ⟨neg, hex, st.value, dp⟩
    | c :: r =>
      if (hex && (c = 'p' || c = 'P')) || (!hex && (c = 'e' || c = 'E')) then
        let eneg := isNegSign r
        let r1 := dropSign r
        match r1 with
        | [] => none
        | d :: _ =>
          if !isDigit d then none
          else
            let (e, u, rest2) := scanExpDigits r1 0 false
            if rest2 ≠ [] then none
            else if (st.underscores || u) && !underscoreOK s then none
            else some ⟨neg, hex, st.value, dp + (if eneg then -(e : Int) else (e : Int))⟩
      else none

/-- Go `strconv.ParseFloat(s, 64)`: the value and the error returned. The
value read is rounded to the nearest `float64`, ties to even; beyond the
range it is an infinity and the error is `ErrRange`. -/
def parseFloat (s : GoString) : Float64 × Option NumError :=
  match special s with
  | some (f, rest) => if rest = [] then (f, none) else (Float64.zero, some .errSyntax)
  | none =>
    match readFloat s with
    | none => (Float64.zero, some .errSyntax)
    | some r =>
      let base : Nat := if r.hex then 2 else 10
      let f := roundFloat64 r.neg (r.mantissa * base ^ r.exp.toNat) (base ^ (-r.exp).toNat)
      match f with
      | .inf _ => (f, some .errRange)
      | _ => (f, none)

/-! ## The source: numeric helpers and the byte-size codec -/

/-- Source `atof64`: the value of `ParseFloat`, its error dropped. -/
def atof64 (s : GoString) : Float64 :=
  (parseFloat (trimSpace s)).1

/-- Source constant `_byte`. -/
def _byte : Nat := 1 <<< (10 * 0)
/-- Source constant `kib`. -/
def kib : Nat := 1 <<< (10 * 1)
/-- Source constant `mib`. -/
def mib : Nat := 1 <<< (10 * 2)
/-- Source constant `gib`. -/
def gib : Nat := 1 <<< (10 * 3)
/-- Source constant `tib`. -/
def tib : Nat := 1 <<< (10 * 4)
/-- Source constant `pib`. -/
def pib : Nat := 1 <<< (10 * 5)
/-- Source constant `eib`. -/
def eib : Nat := 1 <<< (10 * 6)

/-- Source `formattedBytesToInt64`. -/
def formattedBytesToInt64 (A : Arch) (s : GoString) : Int :=
  let r := parseInt (trimSpace s)
  if r.2 = none then r.1
  else
    let s := trimSuffix s " Bytes".toList
    if len s ≤ 1 then atoi64 s
    else
      let b := lastByte s
      if b = 'B'.toNat then toInt64 A (atof64 s.dropLast)
      else if b = 'K'.toNat then toInt64 A ((atof64 s.dropLast).mul (Float64.ofNat kib))
      else if b = 'M'.toNat then toInt64 A ((atof64 s.dropLast).mul (Float64.ofNat mib))
      else if b = 'G'.toNat then toInt64 A ((atof64 s.dropLast).mul (Float64.ofNat gib))
      else if b = 'T'.toNat then toInt64 A ((atof64 s.dropLast).mul (Float64.ofNat tib))
      else if b = 'P'.toNat then toInt64 A ((atof64 s.dropLast).mul (Float64.ofNat pib))
      else if b = 'E'.toNat then toInt64 A ((atof64 s.dropLast).mul (Float64.ofNat eib))
      else toInt64 A (atof64 s)

/-- Source `byteSize`. -/
def byteSize (bytes : Nat) : GoString :=
  let value := Float64.ofNat bytes
  let render := fun (value : Float64) (unit : GoString) =>
    trimSuffix (formatFloatF value 1) ".0".toList ++ unit
  if bytes ≥ eib then render (value.div (Float64.ofNat eib)) "E".toList
  else if bytes ≥ pib then render (value.div (Float64.ofNat pib)) "P".toList
  else if bytes ≥ tib then render (value.div (Float64.ofNat tib)) "T".toList
  else if bytes ≥ gib then render (value.div (Float64.ofNat gib)) "G".toList
  else if bytes ≥ mib then render (value.div (Float64.ofNat mib)) "M".toList
  else if bytes ≥ kib then render (value.div (Float64.ofNat kib)) "K".toList
  else if bytes ≥ _byte then render value "B".toList
  else if bytes = 0 then "0B".toList
  else render value []

/-! ## The session client and its transport -/

/-- Raw bytes (a response body, the text of an error). -/
abbrev Bytes := List UInt8

/-- The UTF-8 bytes of a string. -/
def utf8 (s : GoString) : Bytes := s.flatMap String.utf8EncodeChar

/-- Go `%d` of an `int`. -/
def fmtD (i : Int) : GoString :=
  if i < 0 then '-' :: decimal i.natAbs else decimal i.natAbs

/-- The result of a call that may panic. -/
inductive Outcome (α : Type)
  | ret (a : α)
  | panic (msg : Bytes)

/-- The dynamic type of an `io.Reader` body, as far as
`http.NewRequestWithContext` and the redirect logic of `http.Client` tell
readers apart: `http.NoBody`; a `*bytes.Buffer`, `*bytes.Reader` or
`*strings.Reader`, for which the request gets a `GetBody`; any other reader,
whose request has no `GetBody` and an unknown length. -/
inductive ReaderKind
  | noBody
  | buffered
  | stream
  deriving DecidableEq

/-- The dynamic type of the `body interface{}` argument, in the order the
type switch of `sendRequest` tests it. -/
inductive Body (Values : Type)
  | reader (kind : ReaderKind) (content : Bytes)
  | values (v : Values)
  | other (typeName : GoString)

/-- A value stored in a context under `debugLoggerKey{}`. -/
inductive CtxValue (Logger : Type)
  | logger (l : Logger)
  | notLogger

/-- A `context.Context`, as far as the client reads it: the value under
`debugLoggerKey{}` (`none` when absent or a nil interface). -/
structure Context (Logger : Type) where
  debugValue : Option (CtxValue Logger)

/-- A non-nil `debugLogger` interface value. -/
inductive DebugLogger (Logger : Type)
  | user (l : Logger)
  | noop

/-- Source `debugLoggerFromContext`; `none` is the nil interface. -/
def debugLoggerFromContext {Logger : Type} (ctx : Context Logger) :
    Option (DebugLogger Logger) :=
  match ctx.debugValue with
  | some (.logger l) => some (.user l)
  | _ => some .noop

/-- An `*http.Request`. -/
structure Request (Logger : Type) where
  ctx : Context Logger
  method : GoString
  url : GoString
  bodyKind : ReaderKind
  body : Bytes
  contentType : Option GoString

/-- An `*http.Response`; `body` is what `io.ReadAll(resp.Body)` gives. -/
structure Response (Header : Type) where
  statusCode : Int
  header : Header
  body : Except Bytes Bytes

/-- What a call does besides returning, in order. -/
inductive Event (Logger Header : Type)
  | dumpRequest (req : Request Logger)
  | dumpResponse (resp : Response Header)
  | logf (l : DebugLogger Logger) (format : GoString) (arg : Bytes)
  | roundTrip (req : Request Logger)
  | unmarshal (b : Bytes)

/-- What the client takes from `net/url`, `net/http`, `net/http/httputil`,
`strconv` and `encoding/json`: `url.Parse`, `URL.ResolveReference`,
`URL.String`, `url.Values.Encode`, the validation of
`http.NewRequestWithContext`, the two dumps, `%v` of a header set,
`Header.Get("Location")` (empty when absent), `strconv.Quote` (the `%q` verb),
the text of the `*url.Error` that `http.Client.Do` wraps around an error for
a request, and `json.Unmarshal`. -/
structure Lib (URL Values Logger Header Dest : Type) where
  urlParse : GoString → Except Bytes URL
  resolveReference : URL → URL → URL
  urlString : URL → GoString
  valuesEncode : Values → Bytes
  newRequest : GoString → GoString → Option Bytes
  dumpRequest : Request Logger → Bytes
  dumpResponse : Response Header → Bytes
  fmtHeader : Header → GoString
  location : Header → GoString
  quote : GoString → GoString
  urlError : Request Logger → Bytes → Bytes
  unmarshal : Bytes → Dest → Option Bytes × Dest

/-- Source `debugTransport`: the wrapped `http.RoundTripper`. -/
structure debugTransport (Logger Header : Type) where
  rt : Request Logger → Except Bytes (Response Header)

/-- Source `debugTransport.RoundTrip`: the result and the events. -/
def debugTransport.RoundTrip {URL Values Logger Header Dest : Type}
    (L : Lib URL Values Logger Header Dest) (t : debugTransport Logger Header)
    (req : Request Logger) :
    Except Bytes (Response Header) × List (Event Logger Header) :=
  match debugLoggerFromContext req.ctx with
  | none => (t.rt req, [.roundTrip req])
  | some debugLogger =>
    let drq := L.dumpRequest req
    let before : List (Event Logger Header) :=
      [.dumpRequest req, .logf debugLogger "request: %s".toList drq, .roundTrip req]
    match t.rt req with
    | .ok resp =>
      let drs := L.dumpResponse resp
      (.ok resp, before ++ [.dumpResponse resp, .logf debugLogger "response: %s".toList drs])
    | .error err => (.error err, before)

/-- Go `redirectBehavior`, its result `shouldRedirect`: the statuses 301,
302 and 303 always ask for a redirect; 307 and 308 do unless the request
body cannot be sent again (`GetBody == nil` with a length other than zero,
which is the case of a `stream` reader). -/
def shouldRedirect (statusCode : Int) (kind : ReaderKind) : Bool :=
  if statusCode = 301 ∨ statusCode = 302 ∨ statusCode = 303 then true
  else if statusCode = 307 ∨ statusCode = 308 then kind != .stream
  else false

/-- The `http.Client` that source `New` builds: its `Transport` is the
`debugTransport`, and its `CheckRedirect` returns `http.ErrUseLastResponse`.
(The cookie jar is left to the transport function.) -/
structure Client (Logger Header : Type) where
  transport : debugTransport Logger Header

/-- Go `http.Client.Do` on that client. A transport error comes back wrapped
in a `*url.Error`. A response that asks for a redirect is looked at before
`CheckRedirect` is consulted: without a `Location` header it is returned as
it is; a `Location` that `url.Parse` rejects makes `Do` return an error; a
`Location` that parses reaches `CheckRedirect`, whose `ErrUseLastResponse`
makes `Do` return the response. No second request is ever sent. -/
def Client.Do {URL Values Logger Header Dest : Type}
    (L : Lib URL Values Logger Header Dest) (hc : Client Logger Header)
    (req : Request Logger) :
    Except Bytes (Response Header) × List (Event Logger Header) :=
  let (res, events) := hc.transport.RoundTrip L req
  match res with
  | .error err => (.error (L.urlError req err), events)
  | .ok resp =>
    if shouldRedirect resp.statusCode req.bodyKind then
      let loc := L.location resp.header
      if loc = [] then (.ok resp, events)
      else
        match L.urlParse loc with
        | .error err =>
          (.error (L.urlError req
            (utf8 ("failed to parse Location header ".toList ++ L.quote loc ++ ": ".toList)
              ++ err)), events)
        | .ok _ => (.ok resp, events)
    else (.ok resp, events)

/-- Source `CableModem`; `base` is `none` for a nil pointer. -/
structure CableModem (URL Logger Header : Type) where
  base : Option URL
  hc : Client Logger Header

/-- Source `CableModem.url`. -/
def CableModem.url {URL Values Logger Header Dest : Type}
    (L : Lib URL Values Logger Header Dest) (c : CableModem URL Logger Header)
    (s : GoString) : Outcome (Option URL) :=
  match c.base with
  | none => .ret c.base
  | some base =>
    if len s = 0 then .ret c.base
    else
      let s := if firstByte s = '/'.toNat then s.drop 1 else s
      match L.urlParse s with
      | .error err => .panic err
      | .ok p => .ret (some (L.resolveReference base p))

/-- What `sendRequest` returns and does: the error (`none` for nil), the
destination record afterwards, and the events. -/
structure SendResult (Logger Header Dest : Type) where
  err : Option Bytes
  dest : Dest
  events : List (Event Logger Header)

/-- Source `CableModem.sendRequest`. -/
def CableModem.sendRequest {URL Values Logger Header Dest : Type}
    (L : Lib URL Values Logger Header Dest) (c : CableModem URL Logger Header)
    (ctx : Context Logger) (method path : GoString) (body : Body Values) (o : Dest) :
    Outcome (SendResult Logger Header Dest) :=
  match c.url L path with
  | .panic msg => .panic msg
  | .ret none => .panic (utf8 "invalid memory address or nil pointer dereference".toList)
  | .ret (some resolved) =>
    let u := L.urlString resolved
    let dispatch : GoString → ReaderKind → Bytes → Outcome (SendResult Logger Header Dest) :=
      fun contentType kind reqBody =>
        match L.newRequest method u with
        | some err => .ret ⟨some err, o, []⟩
        | none =>
          let req : Request Logger :=
            ⟨ctx, method, u, kind, reqBody, if contentType ≠ [] then some contentType else none⟩
          let (res, events) := c.hc.Do L req
          match res with
          | .error err => .ret ⟨some err, o, events⟩
          | .ok resp =>
            match resp.body with
            | .error err => .ret ⟨some (utf8 "failed to read body: ".toList ++ err), o, events⟩
            | .ok b =>
              if resp.statusCode ≠ 200 then
                .ret ⟨some (utf8 ("failed with status ".toList ++ fmtD resp.statusCode ++ ": ".toList)
                  ++ b ++ utf8 (" (Header: ".toList ++ L.fmtHeader resp.header ++ ")".toList)), o, events⟩
              else
                match L.unmarshal b o with
                | (some err, o1) =>
                  .ret ⟨some (utf8 "JSON decoding failed: ".toList ++ err), o1, events ++ [.unmarshal b]⟩
                | (none, o1) => .ret ⟨none, o1, events ++ [.unmarshal b]⟩
    match body with
    | .reader kind content => dispatch [] kind content
    | .values v =>
      dispatch "application/x-www-form-urlencoded".toList .buffered (L.valuesEncode v)
    | .other typeName => .ret ⟨some (utf8 ("unsupported body type ".toList ++ typeName)), o, []⟩

/-! ## Auxiliary definitions for the statements -/

/-- Every character of the string is a decimal digit. -/
def AllDigits (s : GoString) : Prop := ∀ c ∈ s, isDigit c = true

instance (s : GoString) : Decidable (AllDigits s) := by
  unfold AllDigits
  infer_instance

/-- The number a string of decimal digits denotes. -/
def natOfDigits (s : GoString) : Nat := s.foldl (fun acc c => acc * 10 + digitVal c) 0

/-- A character of a plain numeral: a digit or the point. -/
def NumChar (c : Char) : Prop := isDigit c = true ∨ c = '.'

/-- A concrete library. A header set is the value of its `Location` header
(empty when there is none); `url.Parse` rejects `%zz` with the error of the
Go library and accepts every other string; `ResolveReference` appends the
reference to the base; the `*url.Error` text is `Op "URL": err`, with `Get`
for the operation. -/
def demoLib : Lib GoString Unit Unit GoString Unit where
  urlParse := fun s =>
    if s = "%zz".toList then .error (utf8 "parse \"%zz\": invalid URL escape \"%zz\"".toList)
    else .ok s
  resolveReference := fun b p => b ++ p
  urlString := fun u => u
  valuesEncode := fun _ => []
  newRequest := fun _ _ => none
  dumpRequest := fun _ => []
  dumpResponse := fun _ => []
  fmtHeader := fun h =>
    if h = [] then "map[]".toList else "map[Location:[".toList ++ h ++ "]]".toList
  location := fun h => h
  quote := fun s => '"' :: s ++ ['"']
  urlError := fun req err => utf8 ("Get ".toList ++ '"' :: req.url ++ "\": ".toList) ++ err
  unmarshal := fun _ o => (none, o)

/-- A transport that answers every request with status 404, no `Location`
header and body `[1, 2, 3]`. -/
def demoTransport : debugTransport Unit GoString :=
  ⟨fun _ => .ok ⟨404, [], .ok [1, 2, 3]⟩⟩

/-- A session on `demoLib` over `demoTransport`. -/
def demoModem : CableModem GoString Unit GoString where
  base := some "http://192.168.100.1/1/Device/".toList
  hc := ⟨demoTransport⟩

/-- A session whose transport answers every request with status 302, the
header `Location: %zz` and the body `moved`. -/
def redirectModem : CableModem GoString Unit GoString where
  base := some "http://192.168.100.1/1/Device/".toList
  hc := ⟨⟨fun _ => .ok ⟨302, "%zz".toList, .ok "moved".toUTF8.data.toList⟩⟩⟩

/-- The request `sendRequest` builds for a supported body. -/
def requestOf {URL Values Logger Header Dest : Type} (L : Lib URL Values Logger Header Dest)
    (ctx : Context Logger) (method : GoString) (u : URL) (body : Body Values) : Request Logger :=
  match body with
  | .values v =>
    ⟨ctx, method, L.urlString u, .buffered, L.valuesEncode v,
      some "application/x-www-form-urlencoded".toList⟩
  | .reader kind content => ⟨ctx, method, L.urlString u, kind, content, none⟩
  | .other _ => ⟨ctx, method, L.urlString u, .noBody, [], none⟩

/-- The rational `q` is a non-negative binary64 value: `M * 2 ^ E` with a
53-bit `M` and an exponent in the range of the format. -/
def Rep (q : ℚ) : Prop :=
  ∃ (M : Nat) (E : Int), M < 2 ^ 53 ∧ -1074 ≤ E ∧ E ≤ 971 ∧ q = (M : ℚ) * 2 ^ E

/-- The `float64` `x` is finite, non-negative, of value `q`, and built as the
rounding builds it. -/
def IsDouble (x : Float64) (q : ℚ) : Prop :=
  ∃ (m : Nat) (p : Int), x = .finite false m p ∧ (m : ℚ) * 2 ^ p = q ∧ m ≤ 2 ^ 53 ∧
    -1074 ≤ p ∧ (p ≤ 970 ∨ (p = 971 ∧ m < 2 ^ 53))

/-- The unit letters of the codec and their factors. -/
def unitFactor : Char → Option Nat
  | 'B' => some _byte
  | 'K' => some kib
  | 'M' => some mib
  | 'G' => some gib
  | 'T' => some tib
  | 'P' => some pib
  | 'E' => some eib
  | _ => none

/-- The unit table of the codec, smallest unit first. -/
def unitTable : List (Nat × Char) :=
  [(1, 'B'), (1024, 'K'), (1024 ^ 2, 'M'), (1024 ^ 3, 'G'), (1024 ^ 4, 'T'), (1024 ^ 5, 'P'),
    (1024 ^ 6, 'E')]

/-- The largest unit of the table that is at most `n` (the byte when there
is none). -/
def largestUnit (n : Nat) : Nat × Char :=
  (unitTable.filter (fun u => u.1 ≤ n)).foldl (fun best u => if best.1 ≤ u.1 then u else best)
    (1, 'B')

/-- The quotient `n / f` rendered with exactly one decimal digit, rounded to
the nearest tenth. -/
def oneDecimal (n f : Nat) : GoString :=
  let t := rneDiv (10 * n) f
  decimal (t / 10) ++ '.' :: [digitChar (t % 10)]

/-- Reference definition of `byteSize`, after the specification: `"0B"` for
zero, else `n` over the largest unit at most `n`, to one decimal digit, a
trailing `".0"` removed, and the letter of the unit. -/
def byteSizeRef (n : Nat) : GoString :=
  if n = 0 then "0B".toList
  else trimSuffix (oneDecimal n (largestUnit n).1) ".0".toList ++ [(largestUnit n).2]

/-! # Properties -/

/-! ## `atoi64` and `strconv.ParseInt` errors -/

theorem parseInt_error_value (t : GoString) (e : NumError) (h : (parseInt t).2 = some e) :
    (parseInt t).1 =
      if e = .errSyntax then 0
      else if t.head? = some '-' then minInt64 else maxInt64 := by
  unfold parseInt at h ⊢
  cases t with
  | nil => simp at h; subst h; simp
  | cons c rest =>
    simp only at h ⊢
    rcases hp : parseUint (if c = '+' ∨ c = '-' then rest else c :: rest) with ⟨un, err⟩
    rw [hp] at h
    rcases err with _ | _ | _
    · simp only at h ⊢
      split_ifs at h ⊢ with h1 h2 <;> simp_all [minInt64, maxInt64]
    · simp at h ⊢
      subst h; simp
    · simp only at h ⊢
      split_ifs at h ⊢ with h1 h2 <;> simp_all [minInt64, maxInt64]

/-- C4, as the code has it: when `strconv.ParseInt` reports an error on the
trimmed string, `atoi64` returns `0` for a syntax error, and for a range
error the bound the value overflowed: the smallest `int64` when the numeral
is negative, the largest otherwise. -/
theorem atoi64_error (s : GoString) (e : NumError) (h : (parseInt (trimSpace s)).2 = some e) :
    atoi64 s =
      if e = .errSyntax then 0
      else if (trimSpace s).head? = some '-' then minInt64 else maxInt64 :=
  parseInt_error_value _ e h

theorem atoi64_error_witness :
    (parseInt (trimSpace "9223372036854775808".toList)).2 = some .errRange ∧
    atoi64 "9223372036854775808".toList = maxInt64 :=
  ⟨by decide, atoi64_error "9223372036854775808".toList .errRange (by decide)⟩

/-- C4 fails as stated: `ParseInt` reports an error (out of range) on
`"9223372036854775808"`, and `atoi64` returns `9223372036854775807`, not `0`. -/
theorem atoi64_range_error_nonzero :
    (parseInt (trimSpace "9223372036854775808".toList)).2 ≠ none ∧
    atoi64 "9223372036854775808".toList = 9223372036854775807 ∧
    atoi64 "9223372036854775808".toList ≠ 0 := by decide

/-! ## Decimal numerals -/

theorem digitChar_facts : ∀ d, d < 10 →
    isDigit (digitChar d) = true ∧ digitVal (digitChar d) = d ∧ (digitChar d).toNat = 48 + d := by
  decide

theorem isDigit_digitChar {d : Nat} (h : d < 10) : isDigit (digitChar d) = true :=
  (digitChar_facts d h).1

theorem digitVal_digitChar {d : Nat} (h : d < 10) : digitVal (digitChar d) = d :=
  (digitChar_facts d h).2.1

theorem toNat_digitChar {d : Nat} (h : d < 10) : (digitChar d).toNat = 48 + d :=
  (digitChar_facts d h).2.2

theorem isDigit_iff {c : Char} : isDigit c = true ↔ 48 ≤ c.toNat ∧ c.toNat ≤ 57 := by
  have h0 : '0'.toNat = 48 := by decide
  have h9 : '9'.toNat = 57 := by decide
  simp [isDigit, h0, h9]

theorem decimalAux_eq (n : Nat) : ∀ fuel acc, n < fuel →
    decimalAux fuel n acc = decimal n ++ acc := by
  induction n using Nat.strong_induction_on with
  | _ n ih =>
    intro fuel acc hf
    obtain ⟨f, rfl⟩ : ∃ f, fuel = f + 1 := ⟨fuel - 1, by omega⟩
    unfold decimal
    simp only [decimalAux]
    by_cases h : n < 10
    · simp [h]
    · simp only [h, if_false]
      have hlt : n / 10 < n := by omega
      rw [ih (n / 10) hlt f _ (by omega), ih (n / 10) hlt n _ hlt]
      simp

theorem decimal_of_lt {n : Nat} (h : n < 10) : decimal n = [digitChar n] := by
  unfold decimal
  simp [decimalAux, h, Nat.mod_eq_of_lt h]

theorem decimal_of_ge {n : Nat} (h : 10 ≤ n) :
    decimal n = decimal (n / 10) ++ [digitChar (n % 10)] := by
  have hlt : n / 10 < n := by omega
  conv_lhs => unfold decimal
  simp only [decimalAux]
  rw [if_neg (by omega), decimalAux_eq (n / 10) n _ hlt]

theorem decimal_ne_nil (n : Nat) : decimal n ≠ [] := by
  by_cases h : n < 10
  · rw [decimal_of_lt h]; simp
  · rw [decimal_of_ge (by omega)]; simp

theorem allDigits_decimal (n : Nat) : AllDigits (decimal n) := by
  induction n using Nat.strong_induction_on with
  | _ n ih =>
    by_cases h : n < 10
    · rw [decimal_of_lt h]
      intro c hc
      simp only [List.mem_singleton] at hc
      subst hc
      exact isDigit_digitChar h
    · rw [decimal_of_ge (by omega)]
      intro c hc
      rcases List.mem_append.1 hc with hc | hc
      · exact ih (n / 10) (by omega) c hc
      · simp only [List.mem_singleton] at hc
        subst hc
        exact isDigit_digitChar (Nat.mod_lt _ (by norm_num))

theorem natOfDigits_append_singleton (s : GoString) (c : Char) :
    natOfDigits (s ++ [c]) = natOfDigits s * 10 + digitVal c := by
  simp [natOfDigits, List.foldl_append]

theorem natOfDigits_decimal (n : Nat) : natOfDigits (decimal n) = n := by
  induction n using Nat.strong_induction_on with
  | _ n ih =>
    by_cases h : n < 10
    · rw [decimal_of_lt h]
      simp [natOfDigits, digitVal_digitChar h]
    · rw [decimal_of_ge (by omega), natOfDigits_append_singleton, ih (n / 10) (by omega),
        digitVal_digitChar (Nat.mod_lt _ (by norm_num))]
      omega

theorem decimalPad_one {d : Nat} : decimalPad 1 d = [digitChar (d % 10)] := by
  simp [decimalPad]

/-! ## Strings: trimming, length, last byte -/

theorem trimSpace_eq_self {s : GoString} (h0 : ∀ c, s.head? = some c → isSpace c = false)
    (h1 : ∀ c, s.getLast? = some c → isSpace c = false) : trimSpace s = s := by
  unfold trimSpace
  have e1 : s.dropWhile isSpace = s := by
    cases s with
    | nil => rfl
    | cons c t =>
      have := h0 c rfl
      simp [List.dropWhile, this]
  rw [e1]
  rw [List.rdropWhile_eq_self_iff]
  intro hne
  have := h1 (s.getLast hne) (List.getLast?_eq_getLast _ hne)
  simp [this]

theorem isSpace_of_isDigit {c : Char} (h : isDigit c = true) : isSpace c = false := by
  rw [isDigit_iff] at h
  simp only [isSpace]
  simp only [Bool.or_eq_false_iff, Bool.and_eq_false_iff, decide_eq_false_iff_not, beq_eq_false_iff_ne]
  omega

theorem len_ge_length (s : GoString) : s.length ≤ len s := by
  induction s with
  | nil => simp [len]
  | cons c t ih =>
    simp only [len, runeLen, List.length_cons]
    split_ifs <;> omega

theorem lastByte_append_singleton (s : GoString) (c : Char) (h : c.toNat < 128) :
    lastByte (s ++ [c]) = c.toNat := by
  simp [lastByte, lastByteOf, h]

theorem hasSuffix_false_of_last {s suffix : GoString} {c d : Char} (hcd : c ≠ d) :
    hasSuffix (s ++ [c]) (suffix ++ [d]) = false := by
  unfold hasSuffix
  rw [Bool.eq_false_iff]
  intro h
  rw [List.isSuffixOf_iff_suffix] at h
  obtain ⟨t, ht⟩ := h
  have := congrArg List.getLast? ht
  rw [← List.append_assoc, List.getLast?_append, List.getLast?_append] at this
  simp at this
  exact hcd this.symm

theorem trimSuffix_append (s suffix : GoString) : trimSuffix (s ++ suffix) suffix = s := by
  unfold trimSuffix hasSuffix
  have : suffix.isSuffixOf (s ++ suffix) = true := by
    rw [List.isSuffixOf_iff_suffix]
    exact List.suffix_append s suffix
  simp [this]

/-! ## `ParseInt` on strings that are not numerals, and on numerals -/

theorem parseUintLoop_range_value : ∀ (s : GoString) (n : Nat),
    (parseUintLoop s n).2 = some .errRange → (parseUintLoop s n).1 = maxUint64 := by
  intro s
  induction s with
  | nil => intro n h; simp [parseUintLoop] at h
  | cons c t ih =>
    intro n h
    simp only [parseUintLoop] at h ⊢
    split_ifs at h ⊢ with h1 h2 h3
    · simp at h
    · rfl
    · rfl
    · exact ih _ h

theorem parseUintLoop_nondigit : ∀ (s : GoString) (n : Nat),
    (∃ c ∈ s, isDigit c = false) → (parseUintLoop s n).2 ≠ none := by
  intro s
  induction s with
  | nil => intro n h; simp at h
  | cons c t ih =>
    intro n h
    simp only [parseUintLoop]
    split_ifs with h1 h2 h3
    · simp
    · simp
    · simp
    · apply ih
      obtain ⟨d, hd, hdd⟩ := h
      rcases List.mem_cons.1 hd with rfl | hd
      · simp [hdd] at h1
      · exact ⟨d, hd, hdd⟩

theorem parseInt_nondigit (c : Char) (rest : GoString) (h : ∃ d ∈ rest, isDigit d = false) :
    (parseInt (c :: rest)).2 ≠ none := by
  have hrest : rest ≠ [] := by
    obtain ⟨d, hd, _⟩ := h
    exact List.ne_nil_of_mem hd
  have hbody : ∃ d ∈ (if c = '+' ∨ c = '-' then rest else c :: rest), isDigit d = false := by
    obtain ⟨d, hd, hdd⟩ := h
    split_ifs
    · exact ⟨d, hd, hdd⟩
    · exact ⟨d, List.mem_cons_of_mem _ hd, hdd⟩
  have hne : (if c = '+' ∨ c = '-' then rest else c :: rest) ≠ [] := by
    split_ifs
    · exact hrest
    · simp
  have hu : (parseUint (if c = '+' ∨ c = '-' then rest else c :: rest)).2 ≠ none := by
    unfold parseUint
    rw [if_neg hne]
    exact parseUintLoop_nondigit _ _ hbody
  have hv : (parseUint (if c = '+' ∨ c = '-' then rest else c :: rest)).2 = some .errRange →
      (parseUint (if c = '+' ∨ c = '-' then rest else c :: rest)).1 = maxUint64 := by
    unfold parseUint
    rw [if_neg hne]
    exact parseUintLoop_range_value _ _
  unfold parseInt
  simp only
  rcases hp : parseUint (if c = '+' ∨ c = '-' then rest else c :: rest) with ⟨un, err⟩
  rw [hp] at hu hv
  rcases err with _ | _ | _
  · exact absurd rfl hu
  · simp
  · have hun : un = maxUint64 := hv rfl
    subst hun
    simp only
    by_cases hneg : c = '-'
    · simp [hneg, maxUint64]
    · simp [hneg, maxUint64]

theorem wrapInt64_of_range {x : Int} (h0 : -(2 ^ 63) ≤ x) (h1 : x < 2 ^ 63) :
    wrapInt64 x = x := by
  unfold wrapInt64
  norm_num at h0 h1 ⊢
  omega

theorem foldl_digits_ge (s : GoString) (n : Nat) :
    n ≤ s.foldl (fun acc c => acc * 10 + digitVal c) n := by
  induction s generalizing n with
  | nil => simp
  | cons c t ih =>
    simp only [List.foldl_cons]
    exact le_trans (by omega) (ih _)

theorem parseUintLoop_digits : ∀ (s : GoString) (n : Nat), AllDigits s →
    s.foldl (fun acc c => acc * 10 + digitVal c) n ≤ maxUint64 →
    parseUintLoop s n = (s.foldl (fun acc c => acc * 10 + digitVal c) n, none) := by
  intro s
  induction s with
  | nil => intro n _ _; simp [parseUintLoop]
  | cons c t ih =>
    intro n hd hle
    have hc : isDigit c = true := hd c (List.mem_cons_self _ _)
    have ht : AllDigits t := fun x hx => hd x (List.mem_cons_of_mem _ hx)
    simp only [List.foldl_cons] at hle ⊢
    have hge := foldl_digits_ge t (n * 10 + digitVal c)
    have hmax : maxUint64 = 18446744073709551615 := by decide
    simp only [parseUintLoop, hc]
    rw [hmax] at hle ⊢
    rw [if_neg (by simp), if_neg (by omega), if_neg (by omega)]
    exact ih _ ht (by rw [hmax]; exact hle)

theorem parseInt_digits (s : GoString) (hs : AllDigits s) (hne : s ≠ [])
    (hlt : natOfDigits s < 2 ^ 63) : parseInt s = ((natOfDigits s : Int), none) := by
  cases s with
  | nil => exact absurd rfl hne
  | cons c t =>
    have hc : isDigit c = true := hs c (List.mem_cons_self _ _)
    rw [isDigit_iff] at hc
    have hplus : c ≠ '+' := by rintro rfl; revert hc; decide
    have hminus : c ≠ '-' := by rintro rfl; revert hc; decide
    have hmax : maxUint64 = 18446744073709551615 := by decide
    have hu : parseUint (c :: t) = (natOfDigits (c :: t), none) := by
      unfold parseUint
      rw [if_neg (by simp)]
      exact parseUintLoop_digits _ 0 hs (by unfold natOfDigits at hlt; rw [hmax]; omega)
    unfold parseInt
    simp only [hplus, hminus, or_self, if_false, hu]
    have h63 : ¬ (natOfDigits (c :: t) ≥ 2 ^ 63) := by omega
    simp only [decide_False, Bool.not_false, Bool.true_and, decide_eq_true_eq, h63, if_false,
      Bool.false_and, Bool.false_eq_true]
    rw [wrapInt64_of_range (by omega) (by exact_mod_cast hlt)]

/-! ## `ParseFloat` on plain decimal numerals -/

theorem numChar_toNat {c : Char} (h : NumChar c) :
    c.toNat = 46 ∨ (48 ≤ c.toNat ∧ c.toNat ≤ 57) := by
  rcases h with h | rfl
  · exact Or.inr (isDigit_iff.1 h)
  · exact Or.inl (by decide)

theorem numChar_ne {c k : Char} (h : NumChar c) (hk : k.toNat ≠ 46 ∧ ¬ (48 ≤ k.toNat ∧ k.toNat ≤ 57)) :
    c ≠ k := by
  rintro rfl
  rcases numChar_toNat h with h | h
  · exact hk.1 h
  · exact hk.2 h

theorem lowerAZ_numChar {c : Char} (h : NumChar c) : lowerAZ c = c := by
  have hA : 'A'.toNat = 65 := by decide
  unfold lowerAZ
  rw [if_neg]
  rw [hA]
  rcases numChar_toNat h with h | h <;> omega

theorem isNegSign_numChar {c : Char} {r : GoString} (h : NumChar c) : isNegSign (c :: r) = false := by
  have : c ≠ '-' := numChar_ne h (by decide)
  unfold isNegSign
  split
  · rename_i heq; simp at heq; exact absurd heq.1 this
  · rfl

theorem dropSign_numChar {c : Char} {r : GoString} (h : NumChar c) : dropSign (c :: r) = c :: r := by
  have h1 : c ≠ '-' := numChar_ne h (by decide)
  have h2 : c ≠ '+' := numChar_ne h (by decide)
  unfold dropSign
  split
  · rename_i heq; simp at heq; exact absurd heq.1 h2
  · rename_i heq; simp at heq; exact absurd heq.1 h1
  · rfl

theorem hexMarker_numChars {s : GoString} (h : ∀ c ∈ s, NumChar c) : hexMarker s = false := by
  unfold hexMarker
  split
  · rename_i x a b
    have hx : NumChar x := h x (by simp)
    have h1 : x ≠ 'x' := numChar_ne hx (by decide)
    have h2 : x ≠ 'X' := numChar_ne hx (by decide)
    simp [h1, h2]
  · rfl

theorem special_numChars {s : GoString} (h : ∀ c ∈ s, NumChar c) : special s = none := by
  cases s with
  | nil => simp [special, isNegSign, dropSign, commonPrefixLenIgnoreCase]
  | cons c r =>
    have hc : NumChar c := h c (List.mem_cons_self _ _)
    have h1 : c ≠ '-' := numChar_ne hc (by decide)
    have h2 : c ≠ '+' := numChar_ne hc (by decide)
    have h3 : c ≠ 'i' := numChar_ne hc (by decide)
    have h4 : c ≠ 'n' := numChar_ne hc (by decide)
    have hs : (match c :: r with
      | '+' :: _ => true
      | '-' :: _ => true
      | _ => false) = false := by
      split
      · rename_i heq; simp at heq; exact absurd heq.1 h2
      · rename_i heq; simp at heq; exact absurd heq.1 h1
      · rfl
    have hi : commonPrefixLenIgnoreCase (c :: r) "infinity".toList = 0 := by
      show commonPrefixLenIgnoreCase (c :: r) ('i' :: "nfinity".toList) = 0
      simp [commonPrefixLenIgnoreCase, lowerAZ_numChar hc, h3]
    have hn : commonPrefixLenIgnoreCase (c :: r) "nan".toList = 0 := by
      show commonPrefixLenIgnoreCase (c :: r) ('n' :: "an".toList) = 0
      simp [commonPrefixLenIgnoreCase, lowerAZ_numChar hc, h4]
    unfold special
    simp only [hs, dropSign_numChar hc, hi, hn]
    simp

theorem scanMantissa_digits (ds : GoString) (hd : AllDigits ds) :
    ∀ (rest : GoString) (st : Mantissa),
      scanMantissa false (ds ++ rest) st =
        scanMantissa false rest
          { st with
            sawDigits := st.sawDigits || !ds.isEmpty
            value := ds.foldl (fun acc c => acc * 10 + digitVal c) st.value
            fracDigits := st.fracDigits + (if st.sawDot then ds.length else 0) } := by
  induction ds with
  | nil => intro rest st; simp
  | cons c t ih =>
    intro rest st
    have hc : isDigit c = true := hd c (List.mem_cons_self _ _)
    have ht : AllDigits t := fun x hx => hd x (List.mem_cons_of_mem _ hx)
    have h1 : c ≠ '_' := numChar_ne (Or.inl hc) (by decide)
    have h2 : c ≠ '.' := by
      rintro rfl
      revert hc
      decide
    rw [List.cons_append, scanMantissa]
    simp only [h1, h2, hc, if_true, if_false, Bool.false_eq_true]
    rw [ih ht]
    congr 1
    cases hsd : st.sawDot <;> (simp [hsd, List.foldl_cons]; try omega)

theorem readFloat_numeral (ip fp : GoString) (dot : Bool) (hi : AllDigits ip) (hf : AllDigits fp)
    (hne : ip ++ fp ≠ []) (hdot : dot = false → fp = []) :
    readFloat (ip ++ (if dot then '.' :: fp else [])) =
      some ⟨false, false, natOfDigits (ip ++ fp), -(fp.length : Int)⟩ := by
  have hchars : ∀ c ∈ ip ++ (if dot then '.' :: fp else []), NumChar c := by
    intro c hc
    rcases List.mem_append.1 hc with hc | hc
    · exact Or.inl (hi c hc)
    · cases dot with
      | false => simp at hc
      | true =>
        simp only [if_true, List.mem_cons] at hc
        rcases hc with rfl | hc
        · exact Or.inr rfl
        · exact Or.inl (hf c hc)
  have hneg : isNegSign (ip ++ (if dot then '.' :: fp else [])) = false := by
    cases hs : ip ++ (if dot then '.' :: fp else []) with
    | nil => rfl
    | cons c r => exact isNegSign_numChar (hchars c (by rw [hs]; simp))
  have hdrop : dropSign (ip ++ (if dot then '.' :: fp else [])) =
      ip ++ (if dot then '.' :: fp else []) := by
    cases hs : ip ++ (if dot then '.' :: fp else []) with
    | nil => rfl
    | cons c r => exact dropSign_numChar (hchars c (by rw [hs]; simp))
  have hhex : hexMarker (ip ++ (if dot then '.' :: fp else [])) = false :=
    hexMarker_numChars hchars
  have hscan : scanMantissa false (ip ++ (if dot then '.' :: fp else [])) ⟨0, 0, false, false, false⟩ =
      (⟨natOfDigits (ip ++ fp), fp.length, dot, true, false⟩, []) := by
    rw [scanMantissa_digits ip hi]
    cases dot with
    | false =>
      have hfp : fp = [] := hdot rfl
      subst hfp
      have : ip ≠ [] := by simpa using hne
      simp [scanMantissa, natOfDigits, this]
    | true =>
      simp only [if_true]
      rw [scanMantissa]
      simp only [show ('.' : Char) ≠ '_' by decide, if_false, Bool.false_eq_true]
      have := scanMantissa_digits fp hf [] ⟨ip.foldl (fun acc c => acc * 10 + digitVal c) 0, 0, true,
        false || !ip.isEmpty, false⟩
      simp only [List.append_nil] at this
      simp only [if_true]
      rw [this]
      simp only [scanMantissa, natOfDigits, List.foldl_append, if_true, zero_add]
      congr 2
      cases ip with
      | nil =>
        have : fp ≠ [] := by simpa using hne
        cases fp with
        | nil => exact absurd rfl this
        | cons _ _ => rfl
      | cons _ _ => rfl
  unfold readFloat
  simp only [hneg, hdrop, hhex, Bool.false_eq_true, if_false, hscan]
  simp

theorem parseFloat_numeral (ip fp : GoString) (dot : Bool) (hi : AllDigits ip) (hf : AllDigits fp)
    (hne : ip ++ fp ≠ []) (hdot : dot = false → fp = []) :
    (parseFloat (ip ++ (if dot then '.' :: fp else []))).1 =
      roundFloat64 false (natOfDigits (ip ++ fp)) (10 ^ fp.length) := by
  have hchars : ∀ c ∈ ip ++ (if dot then '.' :: fp else []), NumChar c := by
    intro c hc
    rcases List.mem_append.1 hc with hc | hc
    · exact Or.inl (hi c hc)
    · cases dot with
      | false => simp at hc
      | true =>
        simp only [if_true, List.mem_cons] at hc
        rcases hc with rfl | hc
        · exact Or.inr rfl
        · exact Or.inl (hf c hc)
  unfold parseFloat
  rw [special_numChars hchars, readFloat_numeral ip fp dot hi hf hne hdot]
  simp only [Bool.false_eq_true, if_false]
  have e1 : (-(fp.length : Int)).toNat = 0 := by simp
  have e2 : (-(-(fp.length : Int))).toNat = fp.length := by simp
  rw [e1, e2, pow_zero, mul_one]
  split <;> rfl

/-! ## Rounding to binary64 -/

theorem ilog2Aux_spec : ∀ (fuel n : Nat), 1 ≤ n → n ≤ fuel →
    2 ^ ilog2Aux fuel n ≤ n ∧ n < 2 ^ (ilog2Aux fuel n + 1) := by
  intro fuel
  induction fuel with
  | zero => intro n h1 h2; omega
  | succ f ih =>
    intro n h1 h2
    simp only [ilog2Aux]
    by_cases h : n < 2
    · rw [if_pos h]
      simp
      omega
    · rw [if_neg h]
      obtain ⟨ih1, ih2⟩ := ih (n / 2) (by omega) (by omega)
      constructor
      · rw [Nat.add_comm, pow_succ]
        omega
      · rw [Nat.add_comm 1, pow_succ]
        omega

theorem ilog2_spec {n : Nat} (h : 1 ≤ n) : 2 ^ ilog2 n ≤ n ∧ n < 2 ^ (ilog2 n + 1) :=
  ilog2Aux_spec n n h le_rfl

/-- The scaling by `2 ^ p` used by the rounding, on the numerator and the
denominator. -/
theorem scale_ratio (a b : Nat) (hb : 0 < b) (p : Int) :
    ((a * 2 ^ (-p).toNat : Nat) : ℚ) / ((b * 2 ^ p.toNat : Nat) : ℚ) = (a : ℚ) / b / 2 ^ p := by
  have hb' : (b : ℚ) ≠ 0 := by exact_mod_cast hb.ne'
  rcases le_total 0 p with hp | hp
  · have e1 : (-p).toNat = 0 := by simp [hp]
    obtain ⟨k, rfl⟩ := Int.eq_ofNat_of_zero_le hp
    rw [e1]
    simp only [Int.toNat_ofNat, pow_zero, mul_one, Nat.cast_mul, Nat.cast_pow, Nat.cast_ofNat,
      zpow_natCast]
    field_simp
  · have e1 : p.toNat = 0 := by simp [hp]
    obtain ⟨k, hk⟩ := Int.eq_ofNat_of_zero_le (neg_nonneg.2 hp)
    have hp' : p = -(k : Int) := by omega
    subst hp'
    rw [e1]
    simp only [neg_neg, Int.toNat_ofNat, pow_zero, mul_one, Nat.cast_mul, Nat.cast_pow,
      Nat.cast_ofNat, zpow_neg, zpow_natCast]
    field_simp

theorem fracLog2_spec (a b : Nat) (ha : 0 < a) (hb : 0 < b) :
    (2 : ℚ) ^ fracLog2 a b ≤ (a : ℚ) / b ∧ (a : ℚ) / b < 2 ^ (fracLog2 a b + 1) := by
  obtain ⟨a1, a2⟩ := ilog2_spec ha
  obtain ⟨b1, b2⟩ := ilog2_spec hb
  have hb' : (0 : ℚ) < b := by exact_mod_cast hb
  have ha' : (0 : ℚ) < a := by exact_mod_cast ha
  have qa1 : (2 : ℚ) ^ (ilog2 a : Int) ≤ a := by
    rw [zpow_natCast]; exact_mod_cast a1
  have qa2 : (a : ℚ) < 2 ^ ((ilog2 a : Int) + 1) := by
    rw [show ((ilog2 a : Int) + 1) = ((ilog2 a + 1 : Nat) : Int) by push_cast; ring, zpow_natCast]
    exact_mod_cast a2
  have qb1 : (2 : ℚ) ^ (ilog2 b : Int) ≤ b := by
    rw [zpow_natCast]; exact_mod_cast b1
  have qb2 : (b : ℚ) < 2 ^ ((ilog2 b : Int) + 1) := by
    rw [show ((ilog2 b : Int) + 1) = ((ilog2 b + 1 : Nat) : Int) by push_cast; ring, zpow_natCast]
    exact_mod_cast b2
  have two_pos : ∀ k : Int, (0 : ℚ) < 2 ^ k := fun k => zpow_pos (by norm_num) k
  set e0 : Int := (ilog2 a : Int) - (ilog2 b : Int) with he0
  -- the coarse bounds 2^(e0-1) < a/b < 2^(e0+1)
  have lo : (2 : ℚ) ^ (e0 - 1) < (a : ℚ) / b := by
    rw [lt_div_iff₀ hb']
    calc (2 : ℚ) ^ (e0 - 1) * b < 2 ^ (e0 - 1) * 2 ^ ((ilog2 b : Int) + 1) :=
          mul_lt_mul_of_pos_left qb2 (two_pos _)
      _ = 2 ^ (ilog2 a : Int) := by
          rw [← zpow_add₀ (by norm_num : (2 : ℚ) ≠ 0)]
          congr 1
          omega
      _ ≤ a := qa1
  have hi : (a : ℚ) / b < 2 ^ (e0 + 1) := by
    rw [div_lt_iff₀ hb']
    calc (a : ℚ) < 2 ^ ((ilog2 a : Int) + 1) := qa2
      _ = 2 ^ (e0 + 1) * 2 ^ (ilog2 b : Int) := by
          rw [← zpow_add₀ (by norm_num : (2 : ℚ) ≠ 0)]
          congr 1
          omega
      _ ≤ 2 ^ (e0 + 1) * b := mul_le_mul_of_nonneg_left qb1 (two_pos _).le
  -- the test of the definition
  have test : (b * 2 ^ e0.toNat ≤ a * 2 ^ (-e0).toNat) ↔ (2 : ℚ) ^ e0 ≤ (a : ℚ) / b := by
    have hs := scale_ratio a b hb e0
    have hden : (0 : ℚ) < ((b * 2 ^ e0.toNat : Nat) : ℚ) := by
      exact_mod_cast Nat.mul_pos hb (pow_pos (by norm_num) _)
    have : (2 : ℚ) ^ e0 ≤ (a : ℚ) / b ↔ 1 ≤ (a : ℚ) / b / 2 ^ e0 := by
      rw [le_div_iff₀ (two_pos _), one_mul]
    rw [this, ← hs, le_div_iff₀ hden, one_mul]
    exact_mod_cast Iff.rfl
  unfold fracLog2
  simp only
  rw [← he0]
  by_cases ht : b * 2 ^ e0.toNat ≤ a * 2 ^ (-e0).toNat
  · rw [if_pos ht]
    exact ⟨test.1 ht, hi⟩
  · rw [if_neg ht]
    refine ⟨lo.le, ?_⟩
    have := lt_of_not_le (fun h => ht (test.2 h))
    rw [show e0 - 1 + 1 = e0 by ring]
    exact this

theorem log2_unique {q : ℚ} {e e' : Int} (h1 : (2 : ℚ) ^ e ≤ q) (h2 : q < 2 ^ (e + 1))
    (h1' : (2 : ℚ) ^ e' ≤ q) (h2' : q < 2 ^ (e' + 1)) : e = e' := by
  have a : (2 : ℚ) ^ e < 2 ^ (e' + 1) := lt_of_le_of_lt h1 h2'
  have b : (2 : ℚ) ^ e' < 2 ^ (e + 1) := lt_of_le_of_lt h1' h2
  rw [zpow_lt_zpow_iff_right₀ (by norm_num : (1 : ℚ) < 2)] at a b
  omega

theorem fracLog2_eq (a b : Nat) (ha : 0 < a) (hb : 0 < b) (e : Int)
    (h1 : (2 : ℚ) ^ e ≤ (a : ℚ) / b) (h2 : (a : ℚ) / b < 2 ^ (e + 1)) : fracLog2 a b = e := by
  obtain ⟨s1, s2⟩ := fracLog2_spec a b ha hb
  exact log2_unique s1 s2 h1 h2
theorem rneDiv_bounds (a b : Nat) (hb : 0 < b) :
    2 * a ≤ 2 * (b * rneDiv a b) + b ∧ 2 * (b * rneDiv a b) ≤ 2 * a + b := by
  unfold rneDiv
  have h1 := Nat.div_add_mod a b
  have h2 := Nat.mod_lt a hb
  simp only
  generalize a / b = q at *
  generalize a % b = r at *
  have h3 : b * (q + 1) = b * q + b := by ring
  split_ifs
  · constructor <;> omega
  · rw [h3]; constructor <;> omega
  · constructor <;> omega
  · rw [h3]; constructor <;> omega

theorem rneDiv_mul_left (b k : Nat) (hb : 0 < b) : rneDiv (b * k) b = k := by
  unfold rneDiv
  simp [Nat.mul_div_cancel_left k hb, hb]

theorem rneDiv_scale (a b c : Nat) (hc : 0 < c) : rneDiv (a * c) (b * c) = rneDiv a b := by
  unfold rneDiv
  simp only [Nat.mul_div_mul_right a b hc, Nat.mul_mod_mul_right]
  have e1 : (2 * (a % b * c) < b * c) ↔ (2 * (a % b) < b) := by
    rw [← Nat.mul_assoc]
    exact Nat.mul_lt_mul_right hc
  have e2 : (b * c < 2 * (a % b * c)) ↔ (b < 2 * (a % b)) := by
    rw [← Nat.mul_assoc]
    exact Nat.mul_lt_mul_right hc
  simp only [e1, e2]

theorem rneDiv_congr {a b a' b' : Nat} (hb : 0 < b) (hb' : 0 < b') (h : a * b' = a' * b) :
    rneDiv a b = rneDiv a' b' := by
  rw [← rneDiv_scale a b b' hb', ← rneDiv_scale a' b' b hb, h, Nat.mul_comm b b']

theorem rneDiv_abs (a b : Nat) (hb : 0 < b) :
    |((rneDiv a b : Nat) : ℚ) - (a : ℚ) / b| ≤ 1 / 2 := by
  obtain ⟨h1, h2⟩ := rneDiv_bounds a b hb
  have hb' : (0 : ℚ) < b := by exact_mod_cast hb
  have q1 : (2 : ℚ) * a ≤ 2 * (b * rneDiv a b) + b := by exact_mod_cast h1
  have q2 : (2 : ℚ) * (b * rneDiv a b) ≤ 2 * a + b := by exact_mod_cast h2
  have hx : (a : ℚ) / b * b = a := div_mul_cancel₀ _ hb'.ne'
  generalize (a : ℚ) / b = x at hx
  generalize ((rneDiv a b : Nat) : ℚ) = r at q1 q2
  rw [← hx] at q1 q2
  rw [abs_le]
  constructor
  · by_contra hc
    push_neg at hc
    have := mul_pos hb' (show (0 : ℚ) < -(1 / 2) - (r - x) by linarith)
    nlinarith
  · by_contra hc
    push_neg at hc
    have := mul_pos hb' (show (0 : ℚ) < (r - x) - 1 / 2 by linarith)
    nlinarith

theorem rneDiv_mono_bound (a b k : Nat) (hb : 0 < b) (h : a ≤ b * k) : rneDiv a b ≤ k := by
  unfold rneDiv
  have h1 := Nat.div_add_mod a b
  have h2 := Nat.mod_lt a hb
  have h3 : a / b ≤ k := by
    calc a / b ≤ b * k / b := Nat.div_le_div_right h
      _ = k := Nat.mul_div_cancel_left k hb
  simp only
  split_ifs
  · exact h3
  · by_contra hc
    have : a / b = k := by omega
    rw [this] at h1
    nlinarith
  · exact h3
  · by_contra hc
    have : a / b = k := by omega
    rw [this] at h1
    nlinarith
theorem roundFloat64_spec (neg : Bool) (a b : Nat) (ha : 0 < a) (hb : 0 < b) (e : Int)
    (h1 : (2 : ℚ) ^ e ≤ (a : ℚ) / b) (h2 : (a : ℚ) / b < 2 ^ (e + 1)) :
    ∃ m : Nat, |(m : ℚ) - (a : ℚ) / b / 2 ^ (max (e - 52) (-1074))| ≤ 1 / 2 ∧ m ≤ 2 ^ 53 ∧
      roundFloat64 neg a b =
        if 971 < max (e - 52) (-1074) ∨ (max (e - 52) (-1074) = 971 ∧ 2 ^ 53 ≤ m) then .inf neg
        else .finite neg m (max (e - 52) (-1074)) := by
  have hlog := fracLog2_eq a b ha hb e h1 h2
  set p : Int := max (e - 52) (-1074) with hp
  have hB : 0 < b * 2 ^ p.toNat := Nat.mul_pos hb (pow_pos (by norm_num) _)
  have hB' : (0 : ℚ) < ((b * 2 ^ p.toNat : Nat) : ℚ) := by exact_mod_cast hB
  have two_pos : ∀ k : Int, (0 : ℚ) < 2 ^ k := fun k => zpow_pos (by norm_num) k
  refine ⟨rneDiv (a * 2 ^ (-p).toNat) (b * 2 ^ p.toNat), ?_, ?_, ?_⟩
  · have := rneDiv_abs (a * 2 ^ (-p).toNat) (b * 2 ^ p.toNat) hB
    rwa [scale_ratio a b hb p] at this
  · apply rneDiv_mono_bound _ _ _ hB
    have hr := scale_ratio a b hb p
    have hlt : (a : ℚ) / b / 2 ^ p < 2 ^ 53 := by
      rw [div_lt_iff₀ (two_pos p)]
      calc (a : ℚ) / b < 2 ^ (e + 1) := h2
        _ = 2 ^ (53 : Int) * 2 ^ (e - 52) := by
            rw [← zpow_add₀ (by norm_num : (2 : ℚ) ≠ 0)]; congr 1; ring
        _ ≤ 2 ^ (53 : Int) * 2 ^ p := by
            apply mul_le_mul_of_nonneg_left _ (two_pos _).le
            exact zpow_le_zpow_right₀ (by norm_num) (le_max_left _ _)
        _ = 2 ^ 53 * 2 ^ p := by norm_num
    rw [← hr, div_lt_iff₀ hB'] at hlt
    have : ((a * 2 ^ (-p).toNat : Nat) : ℚ) < ((b * 2 ^ p.toNat * 2 ^ 53 : Nat) : ℚ) := by
      push_cast at hlt ⊢
      linarith
    have := Nat.cast_lt.1 this
    exact this.le
  · unfold roundFloat64
    rw [if_neg ha.ne']
    simp only [hlog, ← hp]
theorem two_zpow_pos (k : Int) : (0 : ℚ) < 2 ^ k := zpow_pos (by norm_num) k

theorem zpow_split (p E : Int) (h : p ≤ E) :
    (2 : ℚ) ^ E = ((2 ^ (E - p).toNat : Nat) : ℚ) * 2 ^ p := by
  have : (2 : ℚ) ^ E = 2 ^ ((E - p).toNat : Int) * 2 ^ p := by
    rw [← zpow_add₀ (by norm_num : (2 : ℚ) ≠ 0)]
    congr 1
    rw [Int.toNat_of_nonneg (by omega)]
    ring
  rw [this, zpow_natCast]
  norm_num

theorem roundFloat64_zero (neg : Bool) (b : Nat) : roundFloat64 neg 0 b = .finite neg 0 0 := by
  simp [roundFloat64]

theorem roundFloat64_exact (a b : Nat) (hb : 0 < b) (h : Rep ((a : ℚ) / b)) :
    IsDouble (roundFloat64 false a b) ((a : ℚ) / b) := by
  rcases Nat.eq_zero_or_pos a with rfl | ha
  · rw [roundFloat64_zero]
    exact ⟨0, 0, rfl, by simp, by norm_num, by norm_num, Or.inl (by norm_num)⟩
  obtain ⟨M, E, hM, hE1, hE2, hq⟩ := h
  have hb' : (0 : ℚ) < b := by exact_mod_cast hb
  have ha' : (0 : ℚ) < a := by exact_mod_cast ha
  have hqpos : (0 : ℚ) < (a : ℚ) / b := div_pos ha' hb'
  obtain ⟨s1, s2⟩ := fracLog2_spec a b ha hb
  set e := fracLog2 a b with he
  set p : Int := max (e - 52) (-1074) with hp
  -- the quantum is at most the exponent of the value
  have hlt : (2 : ℚ) ^ e < 2 ^ (53 + E) := by
    calc (2 : ℚ) ^ e ≤ (a : ℚ) / b := s1
      _ = M * 2 ^ E := hq
      _ < 2 ^ (53 : Nat) * 2 ^ E := by
          apply mul_lt_mul_of_pos_right _ (two_zpow_pos E)
          exact_mod_cast hM
      _ = 2 ^ (53 + E) := by
          rw [zpow_add₀ (by norm_num : (2 : ℚ) ≠ 0)]
          norm_num
  rw [zpow_lt_zpow_iff_right₀ (by norm_num : (1 : ℚ) < 2)] at hlt
  have hpE : p ≤ E := by
    rw [hp]
    exact max_le (by omega) hE1
  -- so the scaled value is a natural number, and the rounding returns it
  have hval : (a : ℚ) / b / 2 ^ p = ((M * 2 ^ (E - p).toNat : Nat) : ℚ) := by
    rw [hq, zpow_split p E hpE, div_eq_iff (two_zpow_pos p).ne']
    push_cast
    ring
  have hB : 0 < b * 2 ^ p.toNat := Nat.mul_pos hb (pow_pos (by norm_num) _)
  have hm_eq : rneDiv (a * 2 ^ (-p).toNat) (b * 2 ^ p.toNat) = M * 2 ^ (E - p).toNat := by
    have hr := scale_ratio a b hb p
    rw [hval, div_eq_iff (by exact_mod_cast hB.ne')] at hr
    have hnat : a * 2 ^ (-p).toNat = (b * 2 ^ p.toNat) * (M * 2 ^ (E - p).toNat) := by
      have : ((a * 2 ^ (-p).toNat : Nat) : ℚ) =
          (((b * 2 ^ p.toNat) * (M * 2 ^ (E - p).toNat) : Nat) : ℚ) := by
        rw [hr]; push_cast; ring
      exact_mod_cast this
    rw [hnat, rneDiv_mul_left _ _ hB]
  have hround : roundFloat64 false a b =
      if 971 < p ∨ (p = 971 ∧ 2 ^ 53 ≤ M * 2 ^ (E - p).toNat) then .inf false
      else .finite false (M * 2 ^ (E - p).toNat) p := by
    unfold roundFloat64
    rw [if_neg ha.ne']
    simp only [← he, ← hp, hm_eq]
  have hm53 : M * 2 ^ (E - p).toNat ≤ 2 ^ 53 := by
    by_contra hc
    push_neg at hc
    have hbig : (2 : ℚ) ^ (53 : Nat) < ((M * 2 ^ (E - p).toNat : Nat) : ℚ) := by exact_mod_cast hc
    rw [← hval, lt_div_iff₀ (two_zpow_pos p)] at hbig
    have : (a : ℚ) / b < 2 ^ (53 : Nat) * 2 ^ p := by
      calc (a : ℚ) / b < 2 ^ (e + 1) := s2
        _ = 2 ^ (53 : Int) * 2 ^ (e - 52) := by
            rw [← zpow_add₀ (by norm_num : (2 : ℚ) ≠ 0)]; congr 1; ring
        _ ≤ 2 ^ (53 : Int) * 2 ^ p := by
            apply mul_le_mul_of_nonneg_left _ (two_zpow_pos _).le
            exact zpow_le_zpow_right₀ (by norm_num) (le_max_left _ _)
        _ = 2 ^ (53 : Nat) * 2 ^ p := by norm_num
    linarith
  have hnoinf : ¬ (971 < p ∨ (p = 971 ∧ 2 ^ 53 ≤ M * 2 ^ (E - p).toNat)) := by
    rintro (h | ⟨h, h'⟩)
    · omega
    · have hE : E = 971 := by omega
      rw [h, hE] at h'
      simp at h'
      omega
  rw [hround, if_neg hnoinf]
  refine ⟨_, p, rfl, ?_, hm53, le_max_right _ _, ?_⟩
  · rw [← hval, div_mul_cancel₀ _ (two_zpow_pos p).ne']
  · push_neg at hnoinf
    by_cases h971 : p = 971
    · right
      exact ⟨h971, by have := hnoinf.2 h971; omega⟩
    · left
      have := hnoinf.1
      omega
/-- Every positive fraction rounds to an infinity or to a binary64 value
within half a quantum. -/
theorem roundFloat64_total (a b : Nat) (ha : 0 < a) (hb : 0 < b) (e : Int)
    (h1 : (2 : ℚ) ^ e ≤ (a : ℚ) / b) (h2 : (a : ℚ) / b < 2 ^ (e + 1)) :
    roundFloat64 false a b = .inf false ∨
      ∃ q, IsDouble (roundFloat64 false a b) q ∧
        |q - (a : ℚ) / b| ≤ 2 ^ (max (e - 52) (-1074)) / 2 := by
  obtain ⟨m, hm1, hm2, hm3⟩ := roundFloat64_spec false a b ha hb e h1 h2
  set p : Int := max (e - 52) (-1074) with hp
  by_cases hinf : 971 < p ∨ (p = 971 ∧ 2 ^ 53 ≤ m)
  · left
    rw [hm3, if_pos hinf]
  · right
    rw [if_neg hinf] at hm3
    push_neg at hinf
    refine ⟨(m : ℚ) * 2 ^ p, ⟨m, p, hm3, rfl, hm2, le_max_right _ _, ?_⟩, ?_⟩
    · by_cases h971 : p = 971
      · right
        exact ⟨h971, by have := hinf.2 h971; omega⟩
      · left
        have := hinf.1
        omega
    · have hpos := two_zpow_pos p
      have : (m : ℚ) * 2 ^ p - (a : ℚ) / b = ((m : ℚ) - (a : ℚ) / b / 2 ^ p) * 2 ^ p := by
        rw [sub_mul, div_mul_cancel₀ _ hpos.ne']
      rw [this, abs_mul, abs_of_pos hpos]
      calc |(m : ℚ) - (a : ℚ) / b / 2 ^ p| * 2 ^ p ≤ 1 / 2 * 2 ^ p :=
            mul_le_mul_of_nonneg_right hm1 hpos.le
        _ = 2 ^ p / 2 := by ring

/-- In the normal range the rounding is finite, with relative error at most
`2 ^ -53`. -/
theorem roundFloat64_near (a b : Nat) (ha : 0 < a) (hb : 0 < b)
    (hlo : (1 : ℚ) ≤ (a : ℚ) / b) (hhi : (a : ℚ) / b < 2 ^ (1000 : Nat)) :
    ∃ q, IsDouble (roundFloat64 false a b) q ∧
      |q - (a : ℚ) / b| ≤ (a : ℚ) / b / 2 ^ (53 : Nat) := by
  obtain ⟨s1, s2⟩ := fracLog2_spec a b ha hb
  set e := fracLog2 a b with he
  have he0 : 0 ≤ e := by
    have : (2 : ℚ) ^ (0 : Int) < 2 ^ (e + 1) := by
      rw [zpow_zero]; exact lt_of_le_of_lt hlo s2
    rw [zpow_lt_zpow_iff_right₀ (by norm_num : (1 : ℚ) < 2)] at this
    omega
  have he1 : e < 1000 := by
    have : (2 : ℚ) ^ e < 2 ^ ((1000 : Nat) : Int) := by
      rw [zpow_natCast]; exact lt_of_le_of_lt s1 hhi
    rw [zpow_lt_zpow_iff_right₀ (by norm_num : (1 : ℚ) < 2)] at this
    omega
  have hmax : max (e - 52) (-1074) = e - 52 := max_eq_left (by omega)
  rcases roundFloat64_total a b ha hb e s1 s2 with hinf | ⟨q, hq, hd⟩
  · exfalso
    obtain ⟨m, -, hm2, hm3⟩ := roundFloat64_spec false a b ha hb e s1 s2
    rw [hmax] at hm3
    rw [if_neg (by omega)] at hm3
    rw [hm3] at hinf
    cases hinf
  · refine ⟨q, hq, le_trans hd ?_⟩
    rw [hmax]
    have : (2 : ℚ) ^ (e - 52) / 2 = 2 ^ e / 2 ^ (53 : Nat) := by
      rw [show e - 52 = e + (-53) + 1 by ring, zpow_add_one₀ (by norm_num : (2 : ℚ) ≠ 0),
        zpow_add₀ (by norm_num : (2 : ℚ) ≠ 0), zpow_neg]
      norm_num
      ring
    rw [this]
    exact div_le_div_of_nonneg_right s1 (by positivity)
/-! ## Arithmetic on binary64 values -/

theorem rneDiv_congr_rat {a b a' b' : Nat} (hb : 0 < b) (hb' : 0 < b')
    (h : (a : ℚ) / b = (a' : ℚ) / b') : rneDiv a b = rneDiv a' b' := by
  apply rneDiv_congr hb hb'
  have hb1 : (b : ℚ) ≠ 0 := by exact_mod_cast hb.ne'
  have hb2 : (b' : ℚ) ≠ 0 := by exact_mod_cast hb'.ne'
  rw [div_eq_div_iff hb1 hb2] at h
  exact_mod_cast h

theorem pow_ratio (a : Nat) (p : Int) :
    ((a * 2 ^ p.toNat : Nat) : ℚ) / ((2 ^ (-p).toNat : Nat) : ℚ) = (a : ℚ) * 2 ^ p := by
  have := scale_ratio a 1 Nat.one_pos (-p)
  rw [neg_neg, one_mul] at this
  rw [this, zpow_neg]
  simp

theorem isDouble_mul {x y : Float64} {q r : ℚ} (hx : IsDouble x q) (hy : IsDouble y r)
    (h : Rep (q * r)) : IsDouble (x.mul y) (q * r) := by
  obtain ⟨m1, e1, rfl, hq, -, -, -⟩ := hx
  obtain ⟨m2, e2, rfl, hr, -, -, -⟩ := hy
  have hv : ((m1 * m2 * 2 ^ (e1 + e2).toNat : Nat) : ℚ) / ((2 ^ (-(e1 + e2)).toNat : Nat) : ℚ) =
      q * r := by
    rw [pow_ratio, ← hq, ← hr, zpow_add₀ (by norm_num : (2 : ℚ) ≠ 0)]
    push_cast
    ring
  have := roundFloat64_exact (m1 * m2 * 2 ^ (e1 + e2).toNat) (2 ^ (-(e1 + e2)).toNat)
    (pow_pos (by norm_num) _) (by rw [hv]; exact h)
  rw [hv] at this
  exact this

theorem isDouble_div {x y : Float64} {q r : ℚ} (hx : IsDouble x q) (hy : IsDouble y r)
    (hr0 : r ≠ 0) (h : Rep (q / r)) : IsDouble (x.div y) (q / r) := by
  obtain ⟨m1, e1, rfl, hq, -, -, -⟩ := hx
  obtain ⟨m2, e2, rfl, hr, -, -, -⟩ := hy
  have hm2 : m2 ≠ 0 := by
    rintro rfl
    apply hr0
    rw [← hr]
    simp
  have hm2' : (m2 : ℚ) ≠ 0 := by exact_mod_cast hm2
  have hv : ((m1 * 2 ^ (e1 - e2).toNat : Nat) : ℚ) / ((m2 * 2 ^ (e2 - e1).toNat : Nat) : ℚ) =
      q / r := by
    have := scale_ratio m1 m2 (Nat.pos_of_ne_zero hm2) (e2 - e1)
    rw [neg_sub] at this
    rw [this, ← hq, ← hr, zpow_sub₀ (by norm_num : (2 : ℚ) ≠ 0)]
    have h1 := (two_zpow_pos e1).ne'
    have h2 := (two_zpow_pos e2).ne'
    field_simp
  have := roundFloat64_exact (m1 * 2 ^ (e1 - e2).toNat) (m2 * 2 ^ (e2 - e1).toNat)
    (Nat.mul_pos (Nat.pos_of_ne_zero hm2) (pow_pos (by norm_num) _)) (by rw [hv]; exact h)
  rw [hv] at this
  simp only [Float64.div, hm2, if_false, Bool.xor_false]
  exact this

theorem toInt64_isDouble (A : Arch) {x : Float64} {q : ℚ} (hx : IsDouble x q)
    (h : ⌊q⌋ < 2 ^ 63) : toInt64 A x = ⌊q⌋ := by
  obtain ⟨m, e, rfl, hq, -, -, -⟩ := hx
  have hfl : ⌊q⌋ = ((m * 2 ^ e.toNat / 2 ^ (-e).toNat : Nat) : Int) := by
    rw [← hq, ← pow_ratio]
    have := Rat.floor_intCast_div_natCast ((m * 2 ^ e.toNat : Nat) : Int) (2 ^ (-e).toNat)
    push_cast at this ⊢
    rw [← this]
  have h0 : 0 ≤ ⌊q⌋ := by rw [hfl]; exact Int.natCast_nonneg _
  unfold toInt64
  simp only [Float64.trunc?, Bool.false_eq_true, if_false]
  rw [← hfl]
  rw [if_pos]
  constructor
  · unfold minInt64; omega
  · unfold maxInt64; omega

theorem formatFloatF_isDouble {x : Float64} {q : ℚ} (hx : IsDouble x q) (A B : Nat) (hB : 0 < B)
    (h : (A : ℚ) / B = 10 * q) :
    formatFloatF x 1 =
      decimal (rneDiv A B / 10) ++ '.' :: [digitChar (rneDiv A B % 10)] := by
  obtain ⟨m, e, rfl, hq, -, -, -⟩ := hx
  have ht : rneDiv (m * 10 * 2 ^ e.toNat) (2 ^ (-e).toNat) = rneDiv A B := by
    apply rneDiv_congr_rat (pow_pos (by norm_num) _) hB
    rw [pow_ratio, h, ← hq]
    push_cast
    ring
  simp only [formatFloatF, Bool.false_eq_true, if_false, List.nil_append, pow_one,
    one_ne_zero, decimalPad_one, Nat.mod_mod, ht]
/-! ## Decoding a numeral followed by a unit letter -/

theorem unitFactor_cases {u : Char} {f : Nat} (h : unitFactor u = some f) :
    (u = 'B' ∧ f = 2 ^ 0) ∨ (u = 'K' ∧ f = 2 ^ 10) ∨ (u = 'M' ∧ f = 2 ^ 20) ∨
    (u = 'G' ∧ f = 2 ^ 30) ∨ (u = 'T' ∧ f = 2 ^ 40) ∨ (u = 'P' ∧ f = 2 ^ 50) ∨
    (u = 'E' ∧ f = 2 ^ 60) := by
  unfold unitFactor at h
  split at h <;> simp only [Option.some.injEq, reduceCtorEq] at h
  · left; exact ⟨rfl, h.symm⟩
  · right; left; exact ⟨rfl, h.symm⟩
  · right; right; left; exact ⟨rfl, h.symm⟩
  · right; right; right; left; exact ⟨rfl, h.symm⟩
  · right; right; right; right; left; exact ⟨rfl, h.symm⟩
  · right; right; right; right; right; left; exact ⟨rfl, h.symm⟩
  · right; right; right; right; right; right; exact ⟨rfl, h.symm⟩

theorem isSpace_numChar {c : Char} (h : NumChar c) : isSpace c = false := by
  have := numChar_toNat h
  simp only [isSpace]
  simp only [Bool.or_eq_false_iff, Bool.and_eq_false_iff, decide_eq_false_iff_not, beq_eq_false_iff_ne]
  omega

theorem trimSpace_numChars {p : GoString} (h : ∀ c ∈ p, NumChar c) : trimSpace p = p := by
  apply trimSpace_eq_self
  · intro c hc
    exact isSpace_numChar (h c (List.mem_of_mem_head? hc))
  · intro c hc
    exact isSpace_numChar (h c (List.mem_of_mem_getLast? hc))

/-- The strings the decoder reads as a number and a one-letter unit: what
`formattedBytesToInt64` does on them, step by step. -/
theorem formattedBytesToInt64_unit (A : Arch) (p : GoString) (u : Char) (f : Nat)
    (hp : p ≠ []) (hpc : ∀ c ∈ p, NumChar c) (hu : unitFactor u = some f) :
    formattedBytesToInt64 A (p ++ [u]) =
      toInt64 A (if u = 'B' then atof64 p else (atof64 p).mul (Float64.ofNat f)) := by
  have hcases := unitFactor_cases hu
  have hfacts : isDigit u = false ∧ isSpace u = false ∧ u ≠ 's' ∧ u.toNat < 128 := by
    rcases hcases with h | h | h | h | h | h | h <;> (rw [h.1]; decide)
  obtain ⟨hud, hus, hs, hascii⟩ := hfacts
  -- the string is already trimmed
  have htrim : trimSpace (p ++ [u]) = p ++ [u] := by
    apply trimSpace_eq_self
    · intro c hc
      cases p with
      | nil => exact absurd rfl hp
      | cons d t =>
        simp only [List.cons_append, List.head?_cons, Option.some.injEq] at hc
        subst hc
        exact isSpace_numChar (hpc _ (List.mem_cons_self _ _))
    · intro c hc
      simp only [List.getLast?_append, List.getLast?_singleton, Option.or,
        Option.some.injEq] at hc
      subst hc
      exact hus
  -- it is not an integer numeral
  have hint : (parseInt (p ++ [u])).2 ≠ none := by
    cases p with
    | nil => exact absurd rfl hp
    | cons d t =>
      rw [List.cons_append]
      exact parseInt_nondigit d (t ++ [u]) ⟨u, by simp, hud⟩
  -- it does not end in " Bytes"
  have hsuf : trimSuffix (p ++ [u]) " Bytes".toList = p ++ [u] := by
    unfold trimSuffix
    have : hasSuffix (p ++ [u]) (" Byte".toList ++ ['s']) = false := hasSuffix_false_of_last hs
    rw [show " Bytes".toList = " Byte".toList ++ ['s'] from rfl, this]
    simp
  have hlen : ¬ len (p ++ [u]) ≤ 1 := by
    have h1 := len_ge_length (p ++ [u])
    have h2 : 0 < p.length := List.length_pos.2 hp
    rw [List.length_append, List.length_singleton] at h1
    omega
  have hlast : lastByte (p ++ [u]) = u.toNat := lastByte_append_singleton p u hascii
  unfold formattedBytesToInt64
  simp only [htrim, hint, if_false, hsuf, hlen, hlast, List.dropLast_concat]
  rcases hcases with h | h | h | h | h | h | h <;> obtain ⟨rfl, rfl⟩ := h <;> rfl

theorem atof64_numeral (ip fp : GoString) (dot : Bool) (hi : AllDigits ip) (hf : AllDigits fp)
    (hne : ip ++ fp ≠ []) (hdot : dot = false → fp = []) :
    atof64 (ip ++ (if dot then '.' :: fp else [])) =
      roundFloat64 false (natOfDigits (ip ++ fp)) (10 ^ fp.length) := by
  have hchars : ∀ c ∈ ip ++ (if dot then '.' :: fp else []), NumChar c := by
    intro c hc
    rcases List.mem_append.1 hc with hc | hc
    · exact Or.inl (hi c hc)
    · cases dot with
      | false => simp at hc
      | true =>
        simp only [if_true, List.mem_cons] at hc
        rcases hc with rfl | hc
        · exact Or.inr rfl
        · exact Or.inl (hf c hc)
  unfold atof64
  rw [trimSpace_numChars hchars]
  exact parseFloat_numeral ip fp dot hi hf hne hdot

theorem isDouble_unique {x : Float64} {q q' : ℚ} (h : IsDouble x q) (h' : IsDouble x q') :
    q = q' := by
  obtain ⟨m, p, rfl, hq, -, -, -⟩ := h
  obtain ⟨m', p', he, hq', -, -, -⟩ := h'
  simp only [Float64.finite.injEq, true_and] at he
  obtain ⟨rfl, rfl⟩ := he
  rw [← hq, ← hq']

theorem rep_zero : Rep 0 := ⟨0, 0, by norm_num, by norm_num, by norm_num, by simp⟩

theorem rep_mul_pow2 {x : Float64} {X : ℚ} (hx : IsDouble x X) (j : Nat)
    (h : X * ((2 ^ j : Nat) : ℚ) < 2 ^ 63) : Rep (X * ((2 ^ j : Nat) : ℚ)) := by
  obtain ⟨m, p, -, hq, hm, hp, -⟩ := hx
  rcases Nat.eq_zero_or_pos m with rfl | hmpos
  · rw [← hq]
    simp only [Nat.cast_zero, zero_mul]
    exact rep_zero
  have hval : X * ((2 ^ j : Nat) : ℚ) = (m : ℚ) * 2 ^ (p + j) := by
    rw [← hq, zpow_add₀ (by norm_num : (2 : ℚ) ≠ 0), zpow_natCast]
    push_cast
    ring
  have hexp : p + j < 63 := by
    have h1 : (2 : ℚ) ^ (p + j) ≤ (m : ℚ) * 2 ^ (p + j) := by
      have : (1 : ℚ) ≤ m := by exact_mod_cast hmpos
      calc (2 : ℚ) ^ (p + j) = 1 * 2 ^ (p + j) := (one_mul _).symm
        _ ≤ (m : ℚ) * 2 ^ (p + j) := mul_le_mul_of_nonneg_right this (two_zpow_pos _).le
    have h2 : (2 : ℚ) ^ (p + j) < 2 ^ ((63 : Nat) : Int) := by
      rw [zpow_natCast]
      calc (2 : ℚ) ^ (p + j) ≤ (m : ℚ) * 2 ^ (p + j) := h1
        _ = X * ((2 ^ j : Nat) : ℚ) := hval.symm
        _ < 2 ^ 63 := h
    rw [zpow_lt_zpow_iff_right₀ (by norm_num : (1 : ℚ) < 2)] at h2
    omega
  rw [hval]
  by_cases h53 : m < 2 ^ 53
  · exact ⟨m, p + j, h53, by omega, by omega, rfl⟩
  · have hm' : m = 2 ^ 53 := by omega
    refine ⟨2 ^ 52, p + j + 1, by norm_num, by omega, by omega, ?_⟩
    rw [hm', zpow_add_one₀ (by norm_num : (2 : ℚ) ≠ 0)]
    push_cast
    ring

theorem isDouble_ofNat {n : Nat} (h : Rep (n : ℚ)) : IsDouble (Float64.ofNat n) n := by
  have := roundFloat64_exact n 1 Nat.one_pos (by simpa using h)
  simpa [Float64.ofNat] using this

theorem rep_pow2 (j : Nat) (hj : j ≤ 971) : Rep (((2 ^ j : Nat) : ℚ)) :=
  ⟨1, j, by norm_num, by omega, by omega, by push_cast; rw [zpow_natCast]; ring⟩

theorem isDouble_ofNat_pow2 (j : Nat) (hj : j ≤ 971) :
    IsDouble (Float64.ofNat (2 ^ j)) ((2 ^ j : Nat) : ℚ) :=
  isDouble_ofNat (rep_pow2 j hj)


theorem units_eq : _byte = 1 ∧ kib = 2 ^ 10 ∧ mib = 2 ^ 20 ∧ gib = 2 ^ 30 ∧ tib = 2 ^ 40 ∧
    pib = 2 ^ 50 ∧ eib = 2 ^ 60 := by decide

/-- What the decoder returns on a plain numeral followed by a unit letter. -/
theorem decode_numeral_unit (A : Arch) (ip fp : GoString) (dot : Bool) (u : Char)
    (f : Nat) (X : ℚ)
    (hi : AllDigits ip) (hf : AllDigits fp) (hne : ip ++ fp ≠ []) (hdot : dot = false → fp = [])
    (hu : unitFactor u = some f)
    (hx : IsDouble (roundFloat64 false (natOfDigits (ip ++ fp)) (10 ^ fp.length)) X)
    (hlt : X * f < 2 ^ 63) :
    formattedBytesToInt64 A (ip ++ (if dot then '.' :: fp else []) ++ [u]) = ⌊X * f⌋ ∧
    (Rep ((natOfDigits (ip ++ fp) : ℚ) / ((10 ^ fp.length : Nat) : ℚ)) →
      X = (natOfDigits (ip ++ fp) : ℚ) / ((10 ^ fp.length : Nat) : ℚ)) := by
  constructor
  · have hchars : ∀ c ∈ ip ++ (if dot then '.' :: fp else []), NumChar c := by
      intro c hc
      rcases List.mem_append.1 hc with hc | hc
      · exact Or.inl (hi c hc)
      · cases dot with
        | false => simp at hc
        | true =>
          simp only [if_true, List.mem_cons] at hc
          rcases hc with rfl | hc
          · exact Or.inr rfl
          · exact Or.inl (hf c hc)
    have hp : ip ++ (if dot then '.' :: fp else []) ≠ [] := by
      cases dot with
      | false =>
        have := hdot rfl
        subst this
        simpa using hne
      | true => simp
    rw [formattedBytesToInt64_unit A _ u f hp hchars hu, atof64_numeral ip fp dot hi hf hne hdot]
    have hfl : ⌊X * f⌋ < 2 ^ 63 := by
      rw [Int.floor_lt]
      exact_mod_cast hlt
    rcases unitFactor_cases hu with h | h | h | h | h | h | h <;> obtain ⟨rfl, rfl⟩ := h
    · rw [if_pos rfl]
      have hX : X * ((2 ^ 0 : Nat) : ℚ) = X := by simp
      rw [hX] at hfl ⊢
      exact toInt64_isDouble A hx hfl
    all_goals
      rw [if_neg (by decide)]
      exact toInt64_isDouble A
        (isDouble_mul hx (isDouble_ofNat_pow2 _ (by norm_num)) (rep_mul_pow2 hx _ hlt)) hfl
  · intro hrep
    exact isDouble_unique hx (roundFloat64_exact _ _ (pow_pos (by norm_num) _) hrep)

/-! ## The encoder -/

theorem rep_nat {n : Nat} (h : n < 2 ^ 53) : Rep (n : ℚ) :=
  ⟨n, 0, h, by norm_num, by norm_num, by simp⟩

theorem digitChar_ne_zero {d : Nat} (h : d < 10) (h0 : d ≠ 0) : digitChar d ≠ '0' := by
  intro he
  have := toNat_digitChar h
  rw [he] at this
  have h48 : '0'.toNat = 48 := by decide
  omega

/-- One decimal digit, with a trailing `".0"` removed. -/
theorem trimSuffix_oneDecimal (a d : Nat) (hd : d < 10) :
    trimSuffix (decimal a ++ '.' :: [digitChar d]) ".0".toList =
      if d = 0 then decimal a else decimal a ++ ['.', digitChar d] := by
  by_cases h0 : d = 0
  · subst h0
    rw [if_pos rfl]
    exact trimSuffix_append (decimal a) ".0".toList
  · rw [if_neg h0]
    unfold trimSuffix
    have : hasSuffix ((decimal a ++ ['.']) ++ [digitChar d]) (['.'] ++ ['0']) = false :=
      hasSuffix_false_of_last (digitChar_ne_zero hd h0)
    rw [show decimal a ++ '.' :: [digitChar d] = (decimal a ++ ['.']) ++ [digitChar d] by simp,
      show ".0".toList = ['.'] ++ ['0'] from rfl, this]
    simp

theorem byteSize_lt_kib (n : Nat) (h1 : 1 ≤ n) (h2 : n < 1024) :
    byteSize n = trimSuffix (formatFloatF (Float64.ofNat n) 1) ".0".toList ++ ['B'] := by
  obtain ⟨u0, u1, u2, u3, u4, u5, u6⟩ := units_eq
  unfold byteSize
  simp only [u0, u1, u2, u3, u4, u5, u6]
  rw [if_neg (by omega), if_neg (by omega), if_neg (by omega), if_neg (by omega),
    if_neg (by omega), if_neg (by omega), if_pos (by omega)]
  rfl

theorem byteSize_small (n : Nat) (h : n < 1024) : byteSize n = decimal n ++ ['B'] := by
  rcases Nat.eq_zero_or_pos n with rfl | hpos
  · rfl
  · rw [byteSize_lt_kib n hpos h]
    have hd : IsDouble (Float64.ofNat n) n :=
      isDouble_ofNat (rep_nat (lt_trans h (by norm_num)))
    rw [formatFloatF_isDouble hd (10 * n) 1 Nat.one_pos (by push_cast; ring)]
    have e : rneDiv (10 * n) 1 = 10 * n := by
      have := rneDiv_mul_left 1 (10 * n) Nat.one_pos
      rwa [one_mul] at this
    rw [e, trimSuffix_oneDecimal _ _ (Nat.mod_lt _ (by norm_num))]
    rw [if_pos (by omega)]
    congr 2
    omega


theorem rep_nat_le {n : Nat} (h : n ≤ 2 ^ 53) : Rep (n : ℚ) := by
  by_cases h' : n < 2 ^ 53
  · exact rep_nat h'
  · have : n = 2 ^ 53 := by omega
    subst this
    exact rep_pow2 53 (by norm_num)

theorem lastByte_decimal (n : Nat) : 48 ≤ lastByte (decimal n) ∧ lastByte (decimal n) ≤ 57 := by
  have key : ∀ (s : GoString) (d : Nat), d < 10 →
      48 ≤ lastByte (s ++ [digitChar d]) ∧ lastByte (s ++ [digitChar d]) ≤ 57 := by
    intro s d hd
    have := toNat_digitChar hd
    rw [lastByte_append_singleton s _ (by omega)]
    omega
  by_cases h : n < 10
  · rw [decimal_of_lt h]
    exact key [] n h
  · rw [decimal_of_ge (by omega)]
    exact key _ _ (Nat.mod_lt _ (by norm_num))

theorem numChars_decimal (n : Nat) : ∀ c ∈ decimal n, NumChar c :=
  fun c hc => Or.inl (allDigits_decimal n c hc)

theorem byteSize_unit (n : Nat) (u : Char) (f : Nat) (hu : unitFactor u = some f)
    (h1 : f ≤ n) (h0 : 1 ≤ n) (h2 : n < 1024 * f ∨ u = 'E') :
    byteSize n =
      trimSuffix (formatFloatF
        (if u = 'B' then Float64.ofNat n else (Float64.ofNat n).div (Float64.ofNat f)) 1)
        ".0".toList ++ [u] := by
  obtain ⟨u0, u1, u2, u3, u4, u5, u6⟩ := units_eq
  have hE : ¬ ('K' = 'E') ∧ ¬ ('M' = 'E') ∧ ¬ ('G' = 'E') ∧ ¬ ('T' = 'E') ∧ ¬ ('P' = 'E') ∧
      ¬ ('B' = 'E') := by decide
  unfold byteSize
  simp only [u0, u1, u2, u3, u4, u5, u6]
  rcases unitFactor_cases hu with h | h | h | h | h | h | h <;> obtain ⟨rfl, rfl⟩ := h
  · have h2' : n < 1024 := by
      rcases h2 with h2 | h2
      · simpa using h2
      · exact absurd h2 hE.2.2.2.2.2
    norm_num at h1
    rw [if_neg (by omega), if_neg (by omega), if_neg (by omega), if_neg (by omega),
      if_neg (by omega), if_neg (by omega), if_pos (by omega)]
    rfl
  · have h2' : n < 1024 * 2 ^ 10 := h2.resolve_right hE.1
    norm_num at h1 h2'
    rw [if_neg (by omega), if_neg (by omega), if_neg (by omega), if_neg (by omega),
      if_neg (by omega), if_pos (by omega)]
    rfl
  · have h2' : n < 1024 * 2 ^ 20 := h2.resolve_right hE.2.1
    norm_num at h1 h2'
    rw [if_neg (by omega), if_neg (by omega), if_neg (by omega), if_neg (by omega),
      if_pos (by omega)]
    rfl
  · have h2' : n < 1024 * 2 ^ 30 := h2.resolve_right hE.2.2.1
    norm_num at h1 h2'
    rw [if_neg (by omega), if_neg (by omega), if_neg (by omega), if_pos (by omega)]
    rfl
  · have h2' : n < 1024 * 2 ^ 40 := h2.resolve_right hE.2.2.2.1
    norm_num at h1 h2'
    rw [if_neg (by omega), if_neg (by omega), if_pos (by omega)]
    rfl
  · have h2' : n < 1024 * 2 ^ 50 := h2.resolve_right hE.2.2.2.2.1
    norm_num at h1 h2'
    rw [if_neg (by omega), if_pos (by omega)]
    rfl
  · norm_num at h1
    rw [if_pos (by omega)]
    rfl

theorem largestUnit_eq (n : Nat) (u : Char) (f : Nat) (hu : unitFactor u = some f)
    (h1 : f ≤ n) (h2 : n < 1024 * f ∨ u = 'E') : largestUnit n = (f, u) := by
  have hE : ¬ ('K' = 'E') ∧ ¬ ('M' = 'E') ∧ ¬ ('G' = 'E') ∧ ¬ ('T' = 'E') ∧ ¬ ('P' = 'E') ∧
      ¬ ('B' = 'E') := by decide
  unfold largestUnit unitTable
  rcases unitFactor_cases hu with h | h | h | h | h | h | h <;> obtain ⟨rfl, rfl⟩ := h
  · have h2' : n < 1024 * 2 ^ 0 := h2.resolve_right hE.2.2.2.2.2
    norm_num at h1 h2'
    have a1 : (1 ≤ n) := h1
    have a2 : ¬ (1024 ≤ n) := by omega
    have a3 : ¬ (1048576 ≤ n) := by omega
    have a4 : ¬ (1073741824 ≤ n) := by omega
    have a5 : ¬ (1099511627776 ≤ n) := by omega
    have a6 : ¬ (1125899906842624 ≤ n) := by omega
    have a7 : ¬ (1152921504606846976 ≤ n) := by omega
    simp [List.filter, a1, a2, a3, a4, a5, a6, a7]
  · have h2' : n < 1024 * 2 ^ 10 := h2.resolve_right hE.1
    norm_num at h1 h2'
    have a1 : (1 ≤ n) := by omega
    have a2 : (1024 ≤ n) := by omega
    have a3 : ¬ (1048576 ≤ n) := by omega
    have a4 : ¬ (1073741824 ≤ n) := by omega
    have a5 : ¬ (1099511627776 ≤ n) := by omega
    have a6 : ¬ (1125899906842624 ≤ n) := by omega
    have a7 : ¬ (1152921504606846976 ≤ n) := by omega
    simp [List.filter, a1, a2, a3, a4, a5, a6, a7]
  · have h2' : n < 1024 * 2 ^ 20 := h2.resolve_right hE.2.1
    norm_num at h1 h2'
    have a1 : (1 ≤ n) := by omega
    have a2 : (1024 ≤ n) := by omega
    have a3 : (1048576 ≤ n) := by omega
    have a4 : ¬ (1073741824 ≤ n) := by omega
    have a5 : ¬ (1099511627776 ≤ n) := by omega
    have a6 : ¬ (1125899906842624 ≤ n) := by omega
    have a7 : ¬ (1152921504606846976 ≤ n) := by omega
    simp [List.filter, a1, a2, a3, a4, a5, a6, a7]
  · have h2' : n < 1024 * 2 ^ 30 := h2.resolve_right hE.2.2.1
    norm_num at h1 h2'
    have a1 : (1 ≤ n) := by omega
    have a2 : (1024 ≤ n) := by omega
    have a3 : (1048576 ≤ n) := by omega
    have a4 : (1073741824 ≤ n) := by omega
    have a5 : ¬ (1099511627776 ≤ n) := by omega
    have a6 : ¬ (1125899906842624 ≤ n) := by omega
    have a7 : ¬ (1152921504606846976 ≤ n) := by omega
    simp [List.filter, a1, a2, a3, a4, a5, a6, a7]
  · have h2' : n < 1024 * 2 ^ 40 := h2.resolve_right hE.2.2.2.1
    norm_num at h1 h2'
    have a1 : (1 ≤ n) := by omega
    have a2 : (1024 ≤ n) := by omega
    have a3 : (1048576 ≤ n) := by omega
    have a4 : (1073741824 ≤ n) := by omega
    have a5 : (1099511627776 ≤ n) := by omega
    have a6 : ¬ (1125899906842624 ≤ n) := by omega
    have a7 : ¬ (1152921504606846976 ≤ n) := by omega
    simp [List.filter, a1, a2, a3, a4, a5, a6, a7]
  · have h2' : n < 1024 * 2 ^ 50 := h2.resolve_right hE.2.2.2.2.1
    norm_num at h1 h2'
    have a1 : (1 ≤ n) := by omega
    have a2 : (1024 ≤ n) := by omega
    have a3 : (1048576 ≤ n) := by omega
    have a4 : (1073741824 ≤ n) := by omega
    have a5 : (1099511627776 ≤ n) := by omega
    have a6 : (1125899906842624 ≤ n) := by omega
    have a7 : ¬ (1152921504606846976 ≤ n) := by omega
    simp [List.filter, a1, a2, a3, a4, a5, a6, a7]
  · norm_num at h1
    have a1 : (1 ≤ n) := by omega
    have a2 : (1024 ≤ n) := by omega
    have a3 : (1048576 ≤ n) := by omega
    have a4 : (1073741824 ≤ n) := by omega
    have a5 : (1099511627776 ≤ n) := by omega
    have a6 : (1125899906842624 ≤ n) := by omega
    have a7 : (1152921504606846976 ≤ n) := by omega
    simp [List.filter, a1, a2, a3, a4, a5, a6, a7]
theorem toRat_isDouble {x : Float64} {q : ℚ} (h : IsDouble x q) : x.toRat = q := by
  obtain ⟨m, p, rfl, hq, -, -, -⟩ := h
  simp [Float64.toRat, hq]

theorem ofNat_near (n : Nat) (h1 : 1 ≤ n) (h2 : n < 2 ^ 64) :
    ∃ X : ℚ, IsDouble (Float64.ofNat n) X ∧ |X - n| ≤ (n : ℚ) / 2 ^ (53 : Nat) := by
  have hlo : (1 : ℚ) ≤ ((n : ℚ)) / ((1 : Nat) : ℚ) := by
    simp only [Nat.cast_one, div_one]
    exact_mod_cast h1
  have hhi : ((n : ℚ)) / ((1 : Nat) : ℚ) < 2 ^ (1000 : Nat) := by
    simp only [Nat.cast_one, div_one]
    have : (n : ℚ) < 2 ^ (64 : Nat) := by exact_mod_cast h2
    exact lt_trans this (by norm_num)
  obtain ⟨q, hq, hd⟩ := roundFloat64_near n 1 (by omega) Nat.one_pos hlo hhi
  simp only [Nat.cast_one, div_one] at hd
  exact ⟨q, hq, hd⟩

theorem rep_div_pow2 {x : Float64} {X : ℚ} (hx : IsDouble x X) (hX : 1 / 2 ≤ X) (j : Nat)
    (hj : j ≤ 60) : Rep (X / ((2 ^ j : Nat) : ℚ)) := by
  obtain ⟨m, p, -, hq, hm, hp, hr⟩ := hx
  have hval : X / ((2 ^ j : Nat) : ℚ) = (m : ℚ) * 2 ^ (p - j) := by
    rw [← hq, zpow_sub₀ (by norm_num : (2 : ℚ) ≠ 0), zpow_natCast]
    push_cast
    ring
  have hexp : -55 < p := by
    have h1 : (2 : ℚ) ^ (-1 : Int) ≤ 2 ^ (53 + p) := by
      calc (2 : ℚ) ^ (-1 : Int) = 1 / 2 := by norm_num
        _ ≤ X := hX
        _ = (m : ℚ) * 2 ^ p := hq.symm
        _ ≤ 2 ^ (53 : Nat) * 2 ^ p := by
            apply mul_le_mul_of_nonneg_right _ (two_zpow_pos p).le
            exact_mod_cast hm
        _ = 2 ^ (53 + p) := by
            rw [zpow_add₀ (by norm_num : (2 : ℚ) ≠ 0)]
            norm_num
    rw [zpow_le_zpow_iff_right₀ (by norm_num : (1 : ℚ) < 2)] at h1
    omega
  rw [hval]
  by_cases h53 : m < 2 ^ 53
  · refine ⟨m, p - j, h53, by omega, ?_, rfl⟩
    rcases hr with hr | hr <;> omega
  · have hm' : m = 2 ^ 53 := by omega
    have hp' : p ≤ 970 := by
      rcases hr with hr | hr
      · exact hr
      · omega
    refine ⟨2 ^ 52, p - j + 1, by norm_num, by omega, by omega, ?_⟩
    rw [hm', zpow_add_one₀ (by norm_num : (2 : ℚ) ≠ 0)]
    push_cast
    ring

theorem exists_unit (n : Nat) (h : 1 ≤ n) :
    ∃ (u : Char) (f : Nat) (j : Nat), unitFactor u = some f ∧ f = 2 ^ j ∧ j ≤ 60 ∧ f ≤ n ∧
      (n < 1024 * f ∨ u = 'E') := by
  obtain ⟨u0, u1, u2, u3, u4, u5, u6⟩ := units_eq
  by_cases h6 : 2 ^ 60 ≤ n
  · exact ⟨'E', _, 60, rfl, u6, le_rfl, by rw [u6]; exact h6, Or.inr rfl⟩
  by_cases h5 : 2 ^ 50 ≤ n
  · exact ⟨'P', _, 50, rfl, u5, by norm_num, by rw [u5]; exact h5, Or.inl (by rw [u5]; omega)⟩
  by_cases h4 : 2 ^ 40 ≤ n
  · exact ⟨'T', _, 40, rfl, u4, by norm_num, by rw [u4]; exact h4, Or.inl (by rw [u4]; omega)⟩
  by_cases h3 : 2 ^ 30 ≤ n
  · exact ⟨'G', _, 30, rfl, u3, by norm_num, by rw [u3]; exact h3, Or.inl (by rw [u3]; omega)⟩
  by_cases h2 : 2 ^ 20 ≤ n
  · exact ⟨'M', _, 20, rfl, u2, by norm_num, by rw [u2]; exact h2, Or.inl (by rw [u2]; omega)⟩
  by_cases h1 : 2 ^ 10 ≤ n
  · exact ⟨'K', _, 10, rfl, u1, by norm_num, by rw [u1]; exact h1, Or.inl (by rw [u1]; omega)⟩
  · exact ⟨'B', _, 0, rfl, by rw [u0]; rfl, by norm_num, by rw [u0]; exact h,
      Or.inl (by rw [u0]; omega)⟩

/-- The encoder on a value whose unit-scaled `float64` quotient is `X`. -/
theorem byteSize_of_quotient (n : Nat) (u : Char) (f j : Nat) (hu : unitFactor u = some f)
    (hf : f = 2 ^ j) (hj : j ≤ 60) (h1 : f ≤ n) (h0 : 1 ≤ n) (h2 : n < 1024 * f ∨ u = 'E')
    (X : ℚ) (hd : IsDouble (Float64.ofNat n) X) (hX : 1 / 2 ≤ X) (A B : Nat) (hB : 0 < B)
    (hAB : (A : ℚ) / B = 10 * (X / ((2 ^ j : Nat) : ℚ))) :
    byteSize n =
      trimSuffix (decimal (rneDiv A B / 10) ++ '.' :: [digitChar (rneDiv A B % 10)])
        ".0".toList ++ [u] := by
  rw [byteSize_unit n u f hu h1 h0 h2]
  by_cases hB' : u = 'B'
  · rw [if_pos hB']
    have hj0 : j = 0 := by
      subst hB'
      have : f = 1 := by
        have := hu
        simp only [unitFactor, Option.some.injEq] at this
        rw [← this]
        exact units_eq.1
      rw [this] at hf
      by_contra hne
      have : 1 < 2 ^ j := Nat.one_lt_two_pow hne
      omega
    subst hj0
    rw [formatFloatF_isDouble hd A B hB (by rw [hAB]; simp)]
  · rw [if_neg hB', hf]
    have hdiv : IsDouble ((Float64.ofNat n).div (Float64.ofNat (2 ^ j))) (X / ((2 ^ j : Nat) : ℚ)) :=
      isDouble_div hd (isDouble_ofNat_pow2 j (by omega)) (by positivity) (rep_div_pow2 hd hX j hj)
    rw [formatFloatF_isDouble hdiv A B hB hAB]

/-! ## The encoder on exactly representable values -/

theorem byteSize_exact (n : Nat) (u : Char) (f j : Nat) (hu : unitFactor u = some f)
    (hf : f = 2 ^ j) (hj : j ≤ 60) (h1 : f ≤ n) (h0 : 1 ≤ n) (h2 : n < 1024 * f ∨ u = 'E')
    (hd : IsDouble (Float64.ofNat n) n) :
    byteSize n = trimSuffix (oneDecimal n f) ".0".toList ++ [u] := by
  have hn : (1 : ℚ) ≤ n := by exact_mod_cast h0
  have hfpos : 0 < f := by rw [hf]; exact pow_pos (by norm_num) _
  rw [byteSize_of_quotient n u f j hu hf hj h1 h0 h2 n hd (by linarith) (10 * n) f hfpos
    (by rw [hf]; push_cast; ring)]
  rfl

/-! ## The round trip -/

/-- One decimal digit of `t` tenths, a trailing `".0"` removed. -/
theorem render_split (t : Nat) :
    ∃ (ip fp : GoString) (dot : Bool),
      (if t % 10 = 0 then decimal (t / 10) else decimal (t / 10) ++ ['.', digitChar (t % 10)]) =
        ip ++ (if dot then '.' :: fp else []) ∧
      AllDigits ip ∧ AllDigits fp ∧ ip ++ fp ≠ [] ∧ (dot = false → fp = []) ∧
      ((natOfDigits (ip ++ fp) : ℚ) / ((10 ^ fp.length : Nat) : ℚ) = (t : ℚ) / 10) ∧
      (t % 10 = 0 → natOfDigits (ip ++ fp) = t / 10 ∧ fp.length = 0) := by
  by_cases h : t % 10 = 0
  · refine ⟨decimal (t / 10), [], false, by simp [h], allDigits_decimal _, by decide,
      by simpa using decimal_ne_nil _, fun _ => rfl, ?_, fun _ => ?_⟩
    · rw [List.append_nil, natOfDigits_decimal]
      have : t = 10 * (t / 10) := by omega
      conv_rhs => rw [this]
      push_cast
      simp
    · rw [List.append_nil, natOfDigits_decimal]
      exact ⟨rfl, rfl⟩
  · have hd : t % 10 < 10 := Nat.mod_lt _ (by norm_num)
    refine ⟨decimal (t / 10), [digitChar (t % 10)], true, by simp [h], allDigits_decimal _, ?_,
      by simp, fun hc => Bool.noConfusion hc, ?_, fun h0 => absurd h0 h⟩
    · intro c hc
      simp only [List.mem_singleton] at hc
      subst hc
      exact isDigit_digitChar hd
    · rw [natOfDigits_append_singleton, natOfDigits_decimal, digitVal_digitChar hd]
      have : t / 10 * 10 + t % 10 = t := by omega
      rw [this]
      simp

theorem byteSize_render (n : Nat) (u : Char) (f j : Nat) (hu : unitFactor u = some f)
    (hf : f = 2 ^ j) (hj : j ≤ 60) (h1 : f ≤ n) (h0 : 1 ≤ n) (h2 : n < 1024 * f ∨ u = 'E')
    (X : ℚ) (hd : IsDouble (Float64.ofNat n) X) (hX : 1 / 2 ≤ X) :
    ∃ t : Nat, |(t : ℚ) - 10 * (X / ((2 ^ j : Nat) : ℚ))| ≤ 1 / 2 ∧
      byteSize n =
        (if t % 10 = 0 then decimal (t / 10) else decimal (t / 10) ++ ['.', digitChar (t % 10)])
          ++ [u] := by
  have hd' := hd
  obtain ⟨m, p, hm, hq, -, -, -⟩ := hd
  have hB : 0 < 2 ^ (-p).toNat * 2 ^ j := Nat.mul_pos (pow_pos (by norm_num) _) (pow_pos (by norm_num) _)
  have hAB : ((m * 10 * 2 ^ p.toNat : Nat) : ℚ) / ((2 ^ (-p).toNat * 2 ^ j : Nat) : ℚ) =
      10 * (X / ((2 ^ j : Nat) : ℚ)) := by
    have := pow_ratio (m * 10) p
    rw [Nat.cast_mul (2 ^ (-p).toNat) (2 ^ j), ← div_div, this, ← hq]
    push_cast
    ring
  refine ⟨rneDiv (m * 10 * 2 ^ p.toNat) (2 ^ (-p).toNat * 2 ^ j), ?_, ?_⟩
  · rw [← hAB]
    exact rneDiv_abs _ _ hB
  · rw [byteSize_of_quotient n u f j hu hf hj h1 h0 h2 X hd' hX _ _ hB hAB,
      trimSuffix_oneDecimal _ _ (Nat.mod_lt _ (by norm_num))]
theorem decode_render (A : Arch) (t : Nat) (ht : 10 ≤ t) (ht2 : t < 2 ^ 50) (u : Char) (f : Nat)
    (hu : unitFactor u = some f) :
    ∃ Y : ℚ, |Y - (t : ℚ) / 10| ≤ (t : ℚ) / 10 / 2 ^ (53 : Nat) ∧ (t % 10 = 0 → Y = (t : ℚ) / 10) ∧
      (Y * f < 2 ^ 63 →
        formattedBytesToInt64 A
          ((if t % 10 = 0 then decimal (t / 10) else decimal (t / 10) ++ ['.', digitChar (t % 10)])
            ++ [u]) = ⌊Y * f⌋) := by
  obtain ⟨ip, fp, dot, hs, hi, hf, hne, hdot, hval, h0⟩ := render_split t
  have ht' : (1 : ℚ) ≤ (t : ℚ) / 10 := by
    rw [le_div_iff₀ (by norm_num)]
    exact_mod_cast (by omega : 1 * 10 ≤ t)
  have hpow : 0 < 10 ^ fp.length := pow_pos (by norm_num) _
  have key : ∀ Y : ℚ, IsDouble (roundFloat64 false (natOfDigits (ip ++ fp)) (10 ^ fp.length)) Y →
      (Y * f < 2 ^ 63 →
        formattedBytesToInt64 A
          ((if t % 10 = 0 then decimal (t / 10) else decimal (t / 10) ++ ['.', digitChar (t % 10)])
            ++ [u]) = ⌊Y * f⌋) := by
    intro Y hY hlt
    rw [hs]
    exact (decode_numeral_unit A ip fp dot u f Y hi hf hne hdot hu hY hlt).1
  by_cases h : t % 10 = 0
  · have hrep : Rep ((natOfDigits (ip ++ fp) : ℚ) / ((10 ^ fp.length : Nat) : ℚ)) := by
      rw [hval]
      have : (t : ℚ) / 10 = ((t / 10 : Nat) : ℚ) := by
        have h10 : t = 10 * (t / 10) := by omega
        conv_lhs => rw [h10]
        push_cast
        simp
      rw [this]
      exact rep_nat (by omega)
    have hY := roundFloat64_exact _ _ hpow hrep
    rw [hval] at hY
    exact ⟨(t : ℚ) / 10, by simp; positivity, fun _ => rfl, key _ hY⟩
  · have hN : 0 < natOfDigits (ip ++ fp) := by
      rcases Nat.eq_zero_or_pos (natOfDigits (ip ++ fp)) with h' | h'
      · rw [h'] at hval
        simp at hval
        linarith
      · exact h'
    have hhi : (natOfDigits (ip ++ fp) : ℚ) / ((10 ^ fp.length : Nat) : ℚ) < 2 ^ (1000 : Nat) := by
      rw [hval]
      have : (t : ℚ) < 2 ^ (50 : Nat) := by exact_mod_cast ht2
      have h2 : (2 : ℚ) ^ (50 : Nat) ≤ 2 ^ (1000 : Nat) := by norm_num
      linarith
    obtain ⟨Y, hY, hd⟩ := roundFloat64_near _ _ hN hpow (by rw [hval]; exact ht') hhi
    rw [hval] at hd
    exact ⟨Y, hd, fun h0' => absurd h0' h, key Y hY⟩
/-- The arithmetic of the round trip: `X` is `float64(n)`, `t` the tenths
`byteSize` prints for `X / U`, `Y` the `float64` read back from them. -/
theorem roundtrip_arith (n U t : Nat) (X Y : ℚ) (hU : 1024 ≤ U) (hUn : U ≤ n)
    (ha : |X - n| ≤ (n : ℚ) / 2 ^ (53 : Nat))
    (hb : |(t : ℚ) - 10 * (X / ((U : Nat) : ℚ))| ≤ 1 / 2)
    (hc : |Y - (t : ℚ) / 10| ≤ (t : ℚ) / 10 / 2 ^ (53 : Nat))
    (hc0 : t % 10 = 0 → Y = (t : ℚ) / 10) :
    10 ≤ t ∧ |⌊Y * (U : ℚ)⌋ - (n : ℤ)| ≤ ((n / 20 : Nat) : ℤ) := by
  have hUq : (1024 : ℚ) ≤ U := by exact_mod_cast hU
  have hUnq : (U : ℚ) ≤ n := by exact_mod_cast hUn
  have hUpos : (0 : ℚ) < U := by linarith
  obtain ⟨a1, a2⟩ := abs_le.1 ha
  obtain ⟨b1, b2⟩ := abs_le.1 hb
  obtain ⟨c1, c2⟩ := abs_le.1 hc
  have hε : (2 : ℚ) ^ (53 : Nat) = 9007199254740992 := by norm_num
  rw [hε] at a1 a2 c1 c2
  -- scale the tenths and the value read back by the unit
  have eb : ((t : ℚ) - 10 * (X / (U : ℚ))) * U = t * U - 10 * X := by
    field_simp
  have ec : (Y - (t : ℚ) / 10) * U = Y * U - t * U / 10 := by ring
  have b1' : -(U : ℚ) / 2 ≤ t * U - 10 * X := by
    have := mul_le_mul_of_nonneg_right b1 hUpos.le
    rw [eb] at this
    linarith
  have b2' : (t : ℚ) * U - 10 * X ≤ U / 2 := by
    have := mul_le_mul_of_nonneg_right b2 hUpos.le
    rw [eb] at this
    linarith
  have c1' : -((t : ℚ) * U / 10 / 9007199254740992) ≤ Y * U - t * U / 10 := by
    have := mul_le_mul_of_nonneg_right c1 hUpos.le
    rw [ec] at this
    linarith
  have c2' : Y * U - (t : ℚ) * U / 10 ≤ (t : ℚ) * U / 10 / 9007199254740992 := by
    have := mul_le_mul_of_nonneg_right c2 hUpos.le
    rw [ec] at this
    linarith
  have r1 : ((⌊Y * (U : ℚ)⌋ : ℤ) : ℚ) ≤ Y * U := Int.floor_le _
  have r2 : Y * U < ((⌊Y * (U : ℚ)⌋ : ℤ) : ℚ) + 1 := Int.lt_floor_add_one _
  -- at least ten tenths
  have ht10 : 10 ≤ t := by
    by_contra hlt
    have h9 : t ≤ 9 := by omega
    have h9q : (t : ℚ) ≤ 9 := by exact_mod_cast h9
    have : (t : ℚ) * U ≤ 9 * U := mul_le_mul_of_nonneg_right h9q hUpos.le
    linarith
  refine ⟨ht10, ?_⟩
  rcases Nat.eq_or_lt_of_le ht10 with h10 | h11
  · -- exactly ten tenths: the value read back is the unit itself
    have hY : Y = 1 := by
      rw [hc0 (by omega), ← h10]
      norm_num
    rw [hY, one_mul, Int.floor_natCast]
    have ht : (t : ℚ) = 10 := by exact_mod_cast h10.symm
    rw [ht] at b1' b2'
    have h19 : (19 : ℚ) * n ≤ 20 * U := by linarith
    have h19' : 19 * n ≤ 20 * U := by exact_mod_cast h19
    rw [abs_le]
    constructor <;> omega
  · have h11q : (11 : ℚ) ≤ t := by exact_mod_cast h11
    have hP : (11 : ℚ) * U ≤ t * U := mul_le_mul_of_nonneg_right h11q hUpos.le
    set R : ℤ := ⌊Y * (U : ℚ)⌋ with hR
    have up : (20 : ℚ) * ((R : ℚ) - n) ≤ n := by linarith
    have lo : (20 : ℚ) * ((n : ℚ) - R) ≤ n := by linarith
    have up' : 20 * (R - (n : ℤ)) ≤ (n : ℤ) := by exact_mod_cast up
    have lo' : 20 * ((n : ℤ) - R) ≤ (n : ℤ) := by exact_mod_cast lo
    rw [abs_le]
    constructor <;> omega
theorem rneDiv_le_even (a b k : Nat) (hb : 0 < b) (h : 2 * a ≤ 2 * (b * k) + b)
    (hk : k % 2 = 0) : rneDiv a b ≤ k := by
  unfold rneDiv
  have h1 := Nat.div_add_mod a b
  have h2 := Nat.mod_lt a hb
  simp only
  generalize hq : a / b = q at *
  generalize hr : a % b = r at *
  have hqk : q ≤ k := by
    by_contra hc
    have : b * (k + 1) ≤ b * q := Nat.mul_le_mul_left b (by omega)
    rw [Nat.mul_add, Nat.mul_one] at this
    omega
  rcases Nat.eq_or_lt_of_le hqk with heq | hlt
  · subst heq
    split_ifs <;> omega
  · split_ifs <;> omega

theorem ofNat_le_bound (n : Nat) (h1 : 2 ^ 62 ≤ n) (h2 : n ≤ 9165725961624433152) (X : ℚ)
    (hd : IsDouble (Float64.ofNat n) X) : X ≤ 9165725961624432640 := by
  have hn : 0 < n := lt_of_lt_of_le (by norm_num) h1
  have hlog : fracLog2 n 1 = 62 := by
    apply fracLog2_eq n 1 hn Nat.one_pos
    · simp only [Nat.cast_one, div_one]
      rw [show (2 : ℚ) ^ (62 : Int) = ((2 ^ 62 : Nat) : ℚ) by norm_num]
      exact_mod_cast h1
    · simp only [Nat.cast_one, div_one]
      have : (n : ℚ) ≤ ((9165725961624433152 : Nat) : ℚ) := by exact_mod_cast h2
      have h3 : (((9165725961624433152 : Nat) : ℚ)) < 2 ^ ((62 : Int) + 1) := by norm_num
      linarith
  have hm : rneDiv n 1024 ≤ 8950904259398860 :=
    rneDiv_le_even n 1024 8950904259398860 (by norm_num) (by omega) (by norm_num)
  have hof : Float64.ofNat n = .finite false (rneDiv n 1024) 10 := by
    unfold Float64.ofNat roundFloat64
    rw [if_neg (by omega), hlog]
    have hp : max ((62 : Int) - 52) (-1074) = 10 := by norm_num
    simp only [hp]
    have e1 : (-(10 : Int)).toNat = 0 := by decide
    have e2 : (10 : Int).toNat = 10 := by decide
    rw [e1, e2, if_neg (by norm_num)]
    norm_num
  obtain ⟨m, p, he, hq, -, -, -⟩ := hd
  rw [hof] at he
  simp only [Float64.finite.injEq, true_and] at he
  obtain ⟨rfl, rfl⟩ := he
  rw [← hq]
  have : ((rneDiv n 1024 : Nat) : ℚ) ≤ 8950904259398860 := by exact_mod_cast hm
  have h10 : (2 : ℚ) ^ (10 : Int) = 1024 := by norm_num
  rw [h10]
  linarith

/-- The tenths printed stay small and the value read back stays below
`2 ^ 63`. -/
theorem roundtrip_range (n U t : Nat) (X Y : ℚ) (hU : 1024 ≤ U) (hUn : U ≤ n)
    (ha : |X - n| ≤ (n : ℚ) / 2 ^ (53 : Nat))
    (hb : |(t : ℚ) - 10 * (X / ((U : Nat) : ℚ))| ≤ 1 / 2)
    (hcase : (n < 1024 * U ∧ U ≤ 2 ^ 50) ∨ (U = 2 ^ 60 ∧ X ≤ 9165725961624432640)) :
    t < 2 ^ 50 ∧
      (|Y - (t : ℚ) / 10| ≤ (t : ℚ) / 10 / 2 ^ (53 : Nat) → Y * (U : ℚ) < 2 ^ 63) := by
  have hUq : (1024 : ℚ) ≤ U := by exact_mod_cast hU
  have hUnq : (U : ℚ) ≤ n := by exact_mod_cast hUn
  have hUpos : (0 : ℚ) < U := by linarith
  obtain ⟨a1, a2⟩ := abs_le.1 ha
  obtain ⟨b1, b2⟩ := abs_le.1 hb
  have hε : (2 : ℚ) ^ (53 : Nat) = 9007199254740992 := by norm_num
  rw [hε] at a1 a2 ⊢
  have eb : ((t : ℚ) - 10 * (X / (U : ℚ))) * U = t * U - 10 * X := by
    field_simp
  have b2' : (t : ℚ) * U - 10 * X ≤ U / 2 := by
    have := mul_le_mul_of_nonneg_right b2 hUpos.le
    rw [eb] at this
    linarith
  have h63 : (2 : ℚ) ^ 63 = 9223372036854775808 := by norm_num
  have scaleY : ∀ k : ℚ, (t : ℚ) ≤ k →
      |Y - (t : ℚ) / 10| ≤ (t : ℚ) / 10 / 9007199254740992 →
      Y * U ≤ k * U / 10 * (1 + 1 / 9007199254740992) := by
    intro k hk hc
    obtain ⟨-, c2⟩ := abs_le.1 hc
    have hY : Y ≤ k / 10 * (1 + 1 / 9007199254740992) := by linarith
    calc Y * U ≤ k / 10 * (1 + 1 / 9007199254740992) * U :=
          mul_le_mul_of_nonneg_right hY hUpos.le
      _ = k * U / 10 * (1 + 1 / 9007199254740992) := by ring
  rcases hcase with ⟨hn, hU50⟩ | ⟨hU60, hX⟩
  · have hnq : (n : ℚ) < 1024 * U := by exact_mod_cast hn
    have hU50q : (U : ℚ) ≤ 1125899906842624 := by
      have : U ≤ 1125899906842624 := by norm_num at hU50; exact hU50
      exact_mod_cast this
    have htle : t ≤ 10240 := by
      by_contra hc
      have h' : (10241 : ℚ) ≤ t := by exact_mod_cast (by omega : 10241 ≤ t)
      have : (10241 : ℚ) * U ≤ t * U := mul_le_mul_of_nonneg_right h' hUpos.le
      linarith
    refine ⟨lt_of_le_of_lt htle (by norm_num), fun hc => ?_⟩
    have := scaleY 10240 (by exact_mod_cast htle) hc
    rw [h63]
    linarith
  · have hUq60 : (U : ℚ) = 1152921504606846976 := by
      rw [hU60]; norm_num
    have htle : t ≤ 79 := by
      by_contra hc
      have h' : (80 : ℚ) ≤ t := by exact_mod_cast (by omega : 80 ≤ t)
      have : (80 : ℚ) * U ≤ t * U := mul_le_mul_of_nonneg_right h' hUpos.le
      rw [hUq60] at this b2'
      linarith
    refine ⟨lt_of_le_of_lt htle (by norm_num), fun hc => ?_⟩
    have := scaleY 79 (by exact_mod_cast htle) hc
    rw [hUq60] at this ⊢
    rw [h63]
    linarith

theorem exists_unit_ge_kib (n : Nat) (h : 1024 ≤ n) :
    ∃ (u : Char) (f : Nat) (j : Nat), unitFactor u = some f ∧ f = 2 ^ j ∧ j ≤ 60 ∧ 1024 ≤ f ∧
      f ≤ n ∧ (n < 1024 * f ∨ u = 'E') ∧ ((n < 1024 * f ∧ f ≤ 2 ^ 50) ∨ f = 2 ^ 60) := by
  obtain ⟨u0, u1, u2, u3, u4, u5, u6⟩ := units_eq
  by_cases h6 : 2 ^ 60 ≤ n
  · exact ⟨'E', _, 60, rfl, u6, le_rfl, by rw [u6]; norm_num, by rw [u6]; exact h6, Or.inr rfl,
      Or.inr u6⟩
  by_cases h5 : 2 ^ 50 ≤ n
  · exact ⟨'P', _, 50, rfl, u5, by norm_num, by rw [u5]; norm_num, by rw [u5]; exact h5,
      Or.inl (by rw [u5]; omega), Or.inl ⟨by rw [u5]; omega, by rw [u5]⟩⟩
  by_cases h4 : 2 ^ 40 ≤ n
  · exact ⟨'T', _, 40, rfl, u4, by norm_num, by rw [u4]; norm_num, by rw [u4]; exact h4,
      Or.inl (by rw [u4]; omega), Or.inl ⟨by rw [u4]; omega, by rw [u4]; norm_num⟩⟩
  by_cases h3 : 2 ^ 30 ≤ n
  · exact ⟨'G', _, 30, rfl, u3, by norm_num, by rw [u3]; norm_num, by rw [u3]; exact h3,
      Or.inl (by rw [u3]; omega), Or.inl ⟨by rw [u3]; omega, by rw [u3]; norm_num⟩⟩
  by_cases h2 : 2 ^ 20 ≤ n
  · exact ⟨'M', _, 20, rfl, u2, by norm_num, by rw [u2]; norm_num, by rw [u2]; exact h2,
      Or.inl (by rw [u2]; omega), Or.inl ⟨by rw [u2]; omega, by rw [u2]; norm_num⟩⟩
  · exact ⟨'K', _, 10, rfl, u1, by norm_num, by rw [u1]; norm_num, by rw [u1]; omega,
      Or.inl (by rw [u1]; omega), Or.inl ⟨by rw [u1]; omega, by rw [u1]; norm_num⟩⟩

/-! ## The decoder on numerals with a unit letter -/

/-- C2, as the code has it: on a plain decimal numeral (digits `ip`, and when
`dot` holds a point and the digits `fp`), of value `v = N / 10 ^ k`, followed
by a unit letter of factor `f`, `formattedBytesToInt64` returns
`⌊X * f⌋` where `X` is `float64(v)`, the binary64 value nearest to `v` (ties
to even), whenever that is finite and `X * f < 2 ^ 63`; and `X = v` whenever
`v` is itself a binary64 value. -/
theorem formattedBytesToInt64_numeral_unit (A : Arch) (ip fp : GoString) (dot : Bool) (u : Char)
    (f : Nat) (X : ℚ)
    (hi : AllDigits ip) (hf : AllDigits fp) (hne : ip ++ fp ≠ []) (hdot : dot = false → fp = [])
    (hu : unitFactor u = some f)
    (hx : IsDouble (roundFloat64 false (natOfDigits (ip ++ fp)) (10 ^ fp.length)) X)
    (hlt : X * f < 2 ^ 63) :
    formattedBytesToInt64 A (ip ++ (if dot then '.' :: fp else []) ++ [u]) = ⌊X * f⌋ ∧
    (Rep ((natOfDigits (ip ++ fp) : ℚ) / ((10 ^ fp.length : Nat) : ℚ)) →
      X = (natOfDigits (ip ++ fp) : ℚ) / ((10 ^ fp.length : Nat) : ℚ)) :=
  decode_numeral_unit A ip fp dot u f X hi hf hne hdot hu hx hlt

set_option maxRecDepth 100000 in
theorem formattedBytesToInt64_numeral_unit_witness :
    formattedBytesToInt64 amd64 "1.5M".toList = 1572864 := by
  have hx : IsDouble (roundFloat64 false (natOfDigits (['1'] ++ ['5'])) (10 ^ ['5'].length))
      (3 / 2) :=
    ⟨6755399441055744, -52, by decide, by norm_num, by norm_num, by norm_num,
      Or.inl (by norm_num)⟩
  have h := (formattedBytesToInt64_numeral_unit amd64 ['1'] ['5'] true 'M' mib (3 / 2)
    (by decide) (by decide) (by decide) (by decide) rfl hx (by rw [units_eq.2.2.1]; norm_num)).1
  have e : ⌊(3 / 2 : ℚ) * (mib : ℕ)⌋ = 1572864 := by
    rw [show (3 / 2 : ℚ) * (mib : ℕ) = ((1572864 : ℤ) : ℚ) by rw [units_eq.2.2.1]; norm_num]
    exact Int.floor_intCast _
  rw [e] at h
  exact h

set_option maxRecDepth 100000 in
/-- C2 fails as stated: on `"7.1E"` the value `7.1 * 2 ^ 60` truncates to
`8185742682708613529`, below `2 ^ 63`, and `formattedBytesToInt64` returns
`8185742682708613120` on every platform, the product of the binary64 value
nearest to `7.1` by `2 ^ 60`. -/
theorem formattedBytesToInt64_numeral_unit_inexact :
    unitFactor 'E' = some eib ∧
    ⌊(71 / 10 : ℚ) * (eib : ℕ)⌋ = 8185742682708613529 ∧
    (8185742682708613529 : ℤ) < 2 ^ 63 ∧
    (∀ A : Arch, formattedBytesToInt64 A "7.1E".toList = 8185742682708613120) := by
  refine ⟨rfl, ?_, by norm_num, fun A => rfl⟩
  rw [Int.floor_eq_iff, units_eq.2.2.2.2.2.2]
  norm_num

/-- C10: below the first unit boundary the round trip is exact: for
`n < 1024`, `byteSize n` is the decimal numeral of `n` followed by `B`, and
`formattedBytesToInt64` reads it back as `n`, on every platform. -/
theorem roundtrip_below_kib (A : Arch) (n : Nat) (h : n < 1024) :
    byteSize n = decimal n ++ ['B'] ∧ formattedBytesToInt64 A (byteSize n) = n := by
  refine ⟨byteSize_small n h, ?_⟩
  rw [byteSize_small n h]
  have hx : IsDouble (roundFloat64 false (natOfDigits (decimal n ++ [])) (10 ^ ([] : GoString).length))
      n := by
    rw [List.append_nil, natOfDigits_decimal]
    have := roundFloat64_exact n 1 Nat.one_pos (by simpa using rep_nat (lt_trans h (by norm_num)))
    simpa using this
  have hn : (n : ℚ) < 1024 := by exact_mod_cast h
  have := (decode_numeral_unit A (decimal n) [] false 'B' _byte n
    (allDigits_decimal n) (by decide) (by simpa using decimal_ne_nil n) (fun _ => rfl) rfl hx
    (by rw [units_eq.1]; push_cast; linarith)).1
  simp only [Bool.false_eq_true, if_false, List.append_nil] at this
  rw [this, units_eq.1]
  simp

theorem roundtrip_below_kib_witness :
    byteSize 500 = decimal 500 ++ ['B'] ∧ formattedBytesToInt64 amd64 (byteSize 500) = (500 : Nat) :=
  roundtrip_below_kib amd64 500 (by decide)

/-- C5, as the code has it: for every `d ≤ 2 ^ 53`, the decimal numeral of
`d` followed by `" Bytes"` decodes to `d`, on every platform. (A numeral of
two digits or more goes through `float64`, which holds every integer up to
`2 ^ 53` exactly.) -/
theorem formattedBytesToInt64_bytes_suffix (A : Arch) (d : Nat) (h : d ≤ 2 ^ 53) :
    formattedBytesToInt64 A (decimal d ++ " Bytes".toList) = d := by
  have hne := decimal_ne_nil d
  have hdig := allDigits_decimal d
  -- the string is already trimmed
  have htrim : trimSpace (decimal d ++ " Bytes".toList) = decimal d ++ " Bytes".toList := by
    apply trimSpace_eq_self
    · intro c hc
      cases hdec : decimal d with
      | nil => exact absurd hdec hne
      | cons x t =>
        rw [hdec] at hc hdig
        simp only [List.cons_append, List.head?_cons, Option.some.injEq] at hc
        subst hc
        exact isSpace_of_isDigit (hdig _ (List.mem_cons_self _ _))
    · intro c hc
      rw [show " Bytes".toList = " Byte".toList ++ ['s'] from rfl, ← List.append_assoc] at hc
      simp only [List.getLast?_append, List.getLast?_singleton, Option.or, Option.some.injEq] at hc
      subst hc
      decide
  -- it is not an integer numeral
  have hint : (parseInt (decimal d ++ " Bytes".toList)).2 ≠ none := by
    cases hdec : decimal d with
    | nil => exact absurd hdec hne
    | cons x t =>
      rw [List.cons_append]
      exact parseInt_nondigit x (t ++ " Bytes".toList) ⟨' ', by simp, by decide⟩
  have hsuf : trimSuffix (decimal d ++ " Bytes".toList) " Bytes".toList = decimal d :=
    trimSuffix_append _ _
  have hd63 : (d : ℤ) < 2 ^ 63 := by
    have : d < 2 ^ 63 := lt_of_le_of_lt h (by norm_num)
    exact_mod_cast this
  unfold formattedBytesToInt64
  simp only [htrim, hint, if_false, hsuf]
  by_cases hlen : len (decimal d) ≤ 1
  · -- a single digit: read by `atoi64`
    rw [if_pos hlen]
    unfold atoi64
    rw [trimSpace_numChars (numChars_decimal d),
      parseInt_digits _ hdig hne (by rw [natOfDigits_decimal]; exact lt_of_le_of_lt h (by norm_num)),
      natOfDigits_decimal]
  · -- two digits or more: the last byte is a digit, the whole string goes through `float64`
    rw [if_neg hlen]
    obtain ⟨l1, l2⟩ := lastByte_decimal d
    have hB : 'B'.toNat = 66 := by decide
    have hK : 'K'.toNat = 75 := by decide
    have hM : 'M'.toNat = 77 := by decide
    have hG : 'G'.toNat = 71 := by decide
    have hT : 'T'.toNat = 84 := by decide
    have hP : 'P'.toNat = 80 := by decide
    have hE : 'E'.toNat = 69 := by decide
    rw [if_neg (by omega), if_neg (by omega), if_neg (by omega), if_neg (by omega),
      if_neg (by omega), if_neg (by omega), if_neg (by omega)]
    have hat := atof64_numeral (decimal d) [] false hdig (by decide) (by simpa using hne)
      (fun _ => rfl)
    simp only [Bool.false_eq_true, if_false, List.append_nil, List.length_nil, pow_zero] at hat
    rw [hat, natOfDigits_decimal]
    have hx : IsDouble (roundFloat64 false d 1) d := by
      have := roundFloat64_exact d 1 Nat.one_pos (by simpa using rep_nat_le h)
      simpa using this
    rw [toInt64_isDouble A hx (by rw [Int.floor_natCast]; exact hd63), Int.floor_natCast]

theorem formattedBytesToInt64_bytes_suffix_witness :
    formattedBytesToInt64 amd64 (decimal 100 ++ " Bytes".toList) = (100 : Nat) :=
  formattedBytesToInt64_bytes_suffix amd64 100 (by norm_num)

set_option maxRecDepth 100000 in
/-- C5 fails as stated: `9007199254740993` fits a signed 64-bit integer, and
`"9007199254740993 Bytes"` decodes to `9007199254740992` on every platform:
the numeral is read as a `float64`, which rounds it. -/
theorem formattedBytesToInt64_bytes_suffix_rounds :
    decimal 9007199254740993 ++ " Bytes".toList = "9007199254740993 Bytes".toList ∧
    (9007199254740993 : ℤ) ≤ maxInt64 ∧
    (∀ A : Arch, formattedBytesToInt64 A (decimal 9007199254740993 ++ " Bytes".toList) =
      9007199254740992) :=
  ⟨by decide, by decide, fun A => rfl⟩

/-! ## The encoder against its reference definition -/

/-- C3, as the code has it: `byteSize 0` is `"0B"`; `byteSize n` equals the
reference definition for every `n ≥ 1` that `float64` holds exactly, as it
does every `n ≤ 2 ^ 53`; and `byteSize (k * f)` is the decimal numeral of `k`
followed by the letter of the unit `f`, for every unit and `1 ≤ k < 1024`
with `k * f` an unsigned 64-bit value. -/
theorem byteSize_eq_ref :
    byteSize 0 = "0B".toList ∧
    (∀ n : Nat, 1 ≤ n → n < 2 ^ 64 → (Float64.ofNat n).toRat = (n : ℚ) →
      byteSize n = byteSizeRef n) ∧
    (∀ n : Nat, n ≤ 2 ^ 53 → (Float64.ofNat n).toRat = (n : ℚ)) ∧
    (∀ (u : Char) (f k : Nat), unitFactor u = some f → 1 ≤ k → k < 1024 → k * f < 2 ^ 64 →
      byteSize (k * f) = decimal k ++ [u]) := by
  refine ⟨rfl, ?_, ?_, ?_⟩
  · intro n h1 h2 hex
    obtain ⟨X, hX, -⟩ := ofNat_near n h1 h2
    have hXn : X = n := by rw [← hex, toRat_isDouble hX]
    subst hXn
    obtain ⟨u, f, j, hu, hf, hj, hle, hlt⟩ := exists_unit n h1
    rw [byteSize_exact n u f j hu hf hj hle h1 hlt hX]
    unfold byteSizeRef
    rw [if_neg (by omega), largestUnit_eq n u f hu hle hlt]
  · intro n hn
    exact toRat_isDouble (isDouble_ofNat (rep_nat_le hn))
  · intro u f k hu hk1 hk2 _
    have hj : ∃ j, f = 2 ^ j ∧ j ≤ 60 := by
      rcases unitFactor_cases hu with h | h | h | h | h | h | h <;>
        exact ⟨_, h.2, by norm_num⟩
    obtain ⟨j, hf, hj⟩ := hj
    have hfpos : 0 < f := by rw [hf]; exact pow_pos (by norm_num) _
    have hrep : Rep ((k * f : Nat) : ℚ) :=
      ⟨k, j, lt_trans hk2 (by norm_num), by omega, by omega, by
        rw [hf]; push_cast; rw [zpow_natCast]⟩
    have hle : f ≤ k * f := Nat.le_mul_of_pos_left f hk1
    have hlt : k * f < 1024 * f := Nat.mul_lt_mul_of_pos_right hk2 hfpos
    rw [byteSize_exact (k * f) u f j hu hf hj hle (Nat.mul_pos hk1 hfpos) (Or.inl hlt)
      (isDouble_ofNat hrep)]
    unfold oneDecimal
    have e : rneDiv (10 * (k * f)) f = 10 * k := by
      rw [show 10 * (k * f) = f * (10 * k) by ring]
      exact rneDiv_mul_left f (10 * k) hfpos
    simp only [e]
    rw [trimSuffix_oneDecimal _ _ (Nat.mod_lt _ (by norm_num)), if_pos (by omega)]
    congr 2
    omega

set_option maxRecDepth 100000 in
theorem byteSize_eq_ref_witness :
    byteSize 1572864 = byteSizeRef 1572864 ∧ byteSize (500 * _byte) = decimal 500 ++ ['B'] :=
  ⟨byteSize_eq_ref.2.1 1572864 (by norm_num) (by norm_num)
      (byteSize_eq_ref.2.2.1 1572864 (by norm_num)),
    byteSize_eq_ref.2.2.2 'B' _byte 500 rfl (by norm_num) (by norm_num) (by decide)⟩

set_option maxRecDepth 100000 in
/-- C3 fails as stated: `n = 1210567579837189249` lies in the unit `E`
(`2 ^ 60`), and `n / 2 ^ 60 = 1.04999…` renders to one decimal as `1.0`, so
the reference gives `"1E"`; `byteSize` first converts `n` to `float64`, which
rounds it up past `1.05 * 2 ^ 60`, and returns `"1.1E"`. -/
theorem byteSize_ne_ref :
    byteSizeRef 1210567579837189249 = "1E".toList ∧
    byteSize 1210567579837189249 = "1.1E".toList ∧
    byteSize 1210567579837189249 ≠ byteSizeRef 1210567579837189249 := by
  decide

/-! ## The round trip through the codec -/

/-- C1, as the code has it: for every `n` with
`1024 ≤ n ≤ 9165725961624433152`, decoding `byteSize n` gives a value within
5% of `n`, on every platform. The upper bound is the largest `n` that
`byteSize` prints below `"8E"`; from `"8E"` on the decoded value is `2 ^ 63`
or more and does not fit the `int64` that `formattedBytesToInt64` returns. -/
theorem roundtrip_within_five_percent (A : Arch) (n : Nat) (h1 : 1024 ≤ n) (h2 : n ≤ 9165725961624433152) :
    |formattedBytesToInt64 A (byteSize n) - (n : ℤ)| ≤ ((n / 20 : Nat) : ℤ) := by
  obtain ⟨u, f, j, hu, hf, hj, hf1024, hfn, hlt, hcase⟩ := exists_unit_ge_kib n h1
  have hn64 : n < 2 ^ 64 := lt_of_le_of_lt h2 (by norm_num)
  obtain ⟨X, hX, ha⟩ := ofNat_near n (by omega) hn64
  have hnq : (1024 : ℚ) ≤ n := by exact_mod_cast h1
  have hε : (2 : ℚ) ^ (53 : Nat) = 9007199254740992 := by norm_num
  obtain ⟨a1, a2⟩ := abs_le.1 ha
  rw [hε] at a1 a2
  have hXhalf : 1 / 2 ≤ X := by linarith
  obtain ⟨t, hb, hbs⟩ := byteSize_render n u f j hu hf hj hfn (by omega) hlt X hX hXhalf
  rw [← hf] at hb
  -- the case of the largest unit needs the exact bound on `float64(n)`
  have hcase' : (n < 1024 * f ∧ f ≤ 2 ^ 50) ∨ (f = 2 ^ 60 ∧ X ≤ 9165725961624432640) := by
    rcases hcase with hc | hc
    · exact Or.inl hc
    · refine Or.inr ⟨hc, ?_⟩
      by_cases h62 : 2 ^ 62 ≤ n
      · exact ofNat_le_bound n h62 h2 X hX
      · have : (n : ℚ) ≤ 4611686018427387904 := by
          have : n ≤ 4611686018427387904 := by norm_num at h62; omega
          exact_mod_cast this
        linarith
  have htriv : |(t : ℚ) / 10 - (t : ℚ) / 10| ≤ (t : ℚ) / 10 / 2 ^ (53 : Nat) := by
    simp
    positivity
  have ht10 : 10 ≤ t :=
    (roundtrip_arith n f t X ((t : ℚ) / 10) hf1024 hfn ha hb htriv (fun _ => rfl)).1
  have hrange := roundtrip_range n f t X
  obtain ⟨Y, hc, hc0, hdec⟩ :=
    decode_render A t ht10 (hrange ((t : ℚ) / 10) hf1024 hfn ha hb hcase').1 u f hu
  have hlt63 : Y * (f : ℚ) < 2 ^ 63 := (hrange Y hf1024 hfn ha hb hcase').2 hc
  rw [hbs, hdec hlt63]
  exact (roundtrip_arith n f t X Y hf1024 hfn ha hb hc hc0).2

theorem roundtrip_within_five_percent_witness :
    |formattedBytesToInt64 amd64 (byteSize 1075) - ((1075 : Nat) : ℤ)| ≤ ((1075 / 20 : Nat) : ℤ) :=
  roundtrip_within_five_percent amd64 1075 (by norm_num) (by norm_num)

set_option maxRecDepth 100000 in
/-- C1 fails as stated: `2 ^ 64 - 1` is an unsigned 64-bit value, `byteSize`
prints it as `"16E"`, and no `int64` is within 5% of it, whatever the platform
makes of the conversion of `2 ^ 64`. On amd64 the round trip already fails
at `9165725961624433153`, the first value printed as `"8E"`. -/
theorem roundtrip_overflow :
    byteSize 18446744073709551615 = "16E".toList ∧
    (∀ A : Arch, ¬ |formattedBytesToInt64 A (byteSize 18446744073709551615) -
      ((18446744073709551615 : Nat) : ℤ)| ≤ ((18446744073709551615 / 20 : Nat) : ℤ)) ∧
    byteSize 9165725961624433153 = "8E".toList ∧
    ¬ |formattedBytesToInt64 amd64 (byteSize 9165725961624433153) -
      ((9165725961624433153 : Nat) : ℤ)| ≤ ((9165725961624433153 / 20 : Nat) : ℤ) := by
  refine ⟨by decide, fun A => ?_, by decide, by decide⟩
  have e : formattedBytesToInt64 A (byteSize 18446744073709551615) =
      A.cvt (Float64.finite false 4503599627370496 12) := rfl
  have hr := (A.cvt_range (Float64.finite false 4503599627370496 12)).2
  rw [e]
  unfold maxInt64 at hr
  intro h
  rw [abs_le] at h
  omega

/-! ## The session client: URL resolution, dispatch, interception -/

section Client

variable {URL Values Logger Header Dest : Type}

theorem firstByte_eq_slash {c : Char} {s : GoString} (h : firstByte (c :: s) = '/'.toNat) :
    c = '/' := by
  have h47 : '/'.toNat = 47 := by decide
  rw [h47] at h
  simp only [firstByte, firstByteOf] at h
  apply Char.ext
  apply UInt32.ext
  show c.toNat = 47
  split_ifs at h <;> omega

theorem len_pos_of_ne_nil {s : GoString} (h : s ≠ []) : len s ≠ 0 := by
  cases s with
  | nil => exact absurd rfl h
  | cons c t =>
    simp only [len, runeLen]
    split_ifs <;> omega

/-- C8: with a base URL, a non-empty path `p` that does not begin with `/`
and the same path with one `/` put in front resolve alike: `url` gives the
same outcome for both, and whenever `url.Parse` accepts `p` that outcome is
the reference `p` resolved against the base. -/
theorem url_leading_separator (L : Lib URL Values Logger Header Dest)
    (c : CableModem URL Logger Header) (b : URL) (p : GoString)
    (hb : c.base = some b) (hp : p ≠ []) (hs : p.head? ≠ some '/') :
    c.url L ('/' :: p) = c.url L p ∧
      ∀ u, L.urlParse p = .ok u →
        c.url L ('/' :: p) = .ret (some (L.resolveReference b u)) ∧
        c.url L p = .ret (some (L.resolveReference b u)) := by
  have h1 : firstByte ('/' :: p) = '/'.toNat := rfl
  have h2 : firstByte p ≠ '/'.toNat := by
    cases p with
    | nil => exact absurd rfl hp
    | cons d t =>
      intro h
      exact hs (by rw [firstByte_eq_slash h]; rfl)
  have e1 : c.url L ('/' :: p) = c.url L p := by
    simp only [CableModem.url, hb, h1, h2, if_true, if_false, List.drop_succ_cons, List.drop_zero,
      len_pos_of_ne_nil hp, len_pos_of_ne_nil (List.cons_ne_nil '/' p)]
  refine ⟨e1, fun u hu => ?_⟩
  have e2 : c.url L p = .ret (some (L.resolveReference b u)) := by
    simp only [CableModem.url, hb, h2, if_false, len_pos_of_ne_nil hp, hu]
  exact ⟨e1.trans e2, e2⟩

theorem url_leading_separator_witness :
    demoModem.url demoLib "/WiFi/Radios/1".toList = demoModem.url demoLib "WiFi/Radios/1".toList :=
  (url_leading_separator demoLib demoModem "http://192.168.100.1/1/Device/".toList
    "WiFi/Radios/1".toList rfl (by decide) (by decide)).1

/-- C7: on a session with a base URL and a path `url` resolves, a body that
is neither an `io.Reader` nor a `url.Values` (the nil body too) makes
`sendRequest` return the error `unsupported body type T`, leave the
destination as it was, and hand no request to the transport. -/
theorem sendRequest_unsupported_body (L : Lib URL Values Logger Header Dest)
    (c : CableModem URL Logger Header) (ctx : Context Logger) (method path : GoString)
    (typeName : GoString) (o : Dest) (u : URL)
    (hu : c.url L path = .ret (some u)) :
    ∃ r, c.sendRequest L ctx method path (.other typeName) o = .ret r ∧
      r.err = some (utf8 ("unsupported body type ".toList ++ typeName)) ∧
      r.dest = o ∧ r.events = [] := by
  refine ⟨⟨some (utf8 ("unsupported body type ".toList ++ typeName)), o, []⟩, ?_, rfl, rfl, rfl⟩
  simp only [CableModem.sendRequest, hu]

theorem sendRequest_unsupported_body_witness :
    ∃ r, demoModem.sendRequest demoLib ⟨none⟩ "POST".toList "/CM/Reboot".toList
        (.other "<nil>".toList) () = .ret r ∧
      r.err = some (utf8 ("unsupported body type ".toList ++ "<nil>".toList)) ∧
      r.dest = () ∧ r.events = [] :=
  sendRequest_unsupported_body demoLib demoModem ⟨none⟩ "POST".toList "/CM/Reboot".toList
    "<nil>".toList () "http://192.168.100.1/1/Device/CM/Reboot".toList rfl

theorem roundTrip_result (L : Lib URL Values Logger Header Dest)
    (t : debugTransport Logger Header) (req : Request Logger) :
    ∃ ev, t.RoundTrip L req = (t.rt req, ev) ∧ ∀ x, Event.unmarshal x ∉ ev := by
  unfold debugTransport.RoundTrip
  cases debugLoggerFromContext req.ctx with
  | none => exact ⟨_, rfl, by simp⟩
  | some dl =>
    cases h : t.rt req with
    | ok resp => exact ⟨_, rfl, by simp⟩
    | error err => exact ⟨_, rfl, by simp⟩

/-! ### The texts of the errors, in terms of the core string functions -/

theorem utf8_toList (s : String) : utf8 s.toList = s.toUTF8.data.toList := rfl

theorem decimal_eq_toDigits (n : Nat) : ∀ fuel acc, n < fuel →
    Nat.toDigitsCore 10 fuel n acc = decimal n ++ acc := by
  have hdc : ∀ d, d < 10 → Nat.digitChar d = digitChar d := by decide
  induction n using Nat.strong_induction_on with
  | _ n ih =>
    intro fuel acc hf
    obtain ⟨f, rfl⟩ : ∃ f, fuel = f + 1 := ⟨fuel - 1, by omega⟩
    simp only [Nat.toDigitsCore]
    rw [hdc _ (Nat.mod_lt _ (by norm_num))]
    by_cases h : n < 10
    · rw [if_pos (by omega), decimal_of_lt h, Nat.mod_eq_of_lt h]
      rfl
    · rw [if_neg (by omega), ih (n / 10) (by omega) f _ (by omega),
        decimal_of_ge (show 10 ≤ n by omega)]
      simp

theorem decimal_eq_repr (n : Nat) : decimal n = (Nat.repr n).toList := by
  have := decimal_eq_toDigits n (n + 1) [] (by omega)
  rw [List.append_nil] at this
  rw [← this]
  rfl

/-- The model's `%d` is the decimal numeral of the core library. -/
theorem fmtD_eq_toString (i : Int) : fmtD i = (toString i).toList := by
  unfold fmtD
  cases i with
  | ofNat n =>
    rw [if_neg (by simp)]
    exact decimal_eq_repr n
  | negSucc n =>
    rw [if_pos (Int.negSucc_lt_zero n)]
    show '-' :: decimal (n + 1) = ("-" ++ Nat.repr (n + 1)).toList
    rw [decimal_eq_repr]
    rfl

/-- The text of the status error of `sendRequest`. -/
theorem statusError_text (code : Int) (b : Bytes) (h : GoString) :
    utf8 ("failed with status ".toList ++ fmtD code ++ ": ".toList) ++ b ++
        utf8 (" (Header: ".toList ++ h ++ ")".toList) =
      ("failed with status " ++ toString code ++ ": ").toUTF8.data.toList ++ b ++
        (" (Header: " ++ String.mk h ++ ")").toUTF8.data.toList := by
  rw [fmtD_eq_toString, ← utf8_toList, ← utf8_toList]
  simp [String.toList]

/-! ### `http.Client.Do` and the status error -/

/-- What `Do` returns when the transport answers with a response: the
response itself, unless it asks for a redirect with a `Location` header that
`url.Parse` rejects. -/
theorem do_response (L : Lib URL Values Logger Header Dest) (hc : Client Logger Header)
    (req : Request Logger) (resp : Response Header) (h : hc.transport.rt req = .ok resp) :
    ∃ ev, (∀ x, Event.unmarshal x ∉ ev) ∧
      hc.Do L req =
        (if shouldRedirect resp.statusCode req.bodyKind = true ∧ L.location resp.header ≠ [] then
          match L.urlParse (L.location resp.header) with
          | .error err =>
            .error (L.urlError req
              (utf8 ("failed to parse Location header ".toList ++ L.quote (L.location resp.header)
                ++ ": ".toList) ++ err))
          | .ok _ => .ok resp
        else .ok resp, ev) := by
  obtain ⟨ev, he, hne⟩ := roundTrip_result L hc.transport req
  refine ⟨ev, hne, ?_⟩
  unfold Client.Do
  rw [he, h]
  simp only
  by_cases h1 : shouldRedirect resp.statusCode req.bodyKind = true
  · by_cases h2 : L.location resp.header = []
    · simp [h1, h2]
    · simp only [h1, h2, if_true, if_false, ne_eq, not_false_eq_true, and_self]
      cases L.urlParse (L.location resp.header) <;> rfl
  · simp [h1]

/-- What `sendRequest` returns once the request is built, in terms of `Do`. -/
theorem sendRequest_of_do (L : Lib URL Values Logger Header Dest)
    (c : CableModem URL Logger Header) (ctx : Context Logger) (method path : GoString)
    (body : Body Values) (o : Dest) (u : URL)
    (hu : c.url L path = .ret (some u))
    (hbody : ∀ T, body ≠ .other T)
    (hreq : L.newRequest method (L.urlString u) = none) :
    c.sendRequest L ctx method path body o =
      match c.hc.Do L (requestOf L ctx method u body) with
      | (.error err, events) => .ret ⟨some err, o, events⟩
      | (.ok resp, events) =>
        match resp.body with
        | .error err => .ret ⟨some (utf8 "failed to read body: ".toList ++ err), o, events⟩
        | .ok b =>
          if resp.statusCode ≠ 200 then
            .ret ⟨some (utf8 ("failed with status ".toList ++ fmtD resp.statusCode ++ ": ".toList)
              ++ b ++ utf8 (" (Header: ".toList ++ L.fmtHeader resp.header ++ ")".toList)), o, events⟩
          else
            match L.unmarshal b o with
            | (some err, o1) =>
              .ret ⟨some (utf8 "JSON decoding failed: ".toList ++ err), o1, events ++ [.unmarshal b]⟩
            | (none, o1) => .ret ⟨none, o1, events ++ [.unmarshal b]⟩ := by
  cases body with
  | other T => exact absurd rfl (hbody T)
  | reader kind content =>
    simp only [CableModem.sendRequest, hu, hreq, requestOf, ne_eq, not_true_eq_false, if_false]
    generalize c.hc.Do L _ = d
    rcases d with ⟨res, events⟩
    cases res <;> rfl
  | values v =>
    have hct : ("application/x-www-form-urlencoded".toList ≠ []) := by decide
    simp only [CableModem.sendRequest, hu, hreq, requestOf, if_pos hct]
    generalize c.hc.Do L _ = d
    rcases d with ⟨res, events⟩
    cases res <;> rfl

/-- When `Do` hands the response back (it asks for no redirect, or has no
`Location` header, or one that parses), a status other than 200 with a body
that reads fully as `b` makes `sendRequest` return the error
`failed with status <code>: <b> (Header: <header>)`, the number in decimal
and the bytes `b` as they are; `json.Unmarshal` is not called and the
destination is unchanged. -/
theorem sendRequest_status_error (L : Lib URL Values Logger Header Dest)
    (c : CableModem URL Logger Header) (ctx : Context Logger) (method path : GoString)
    (body : Body Values) (o : Dest) (u : URL) (code : Int) (hdr : Header) (b : Bytes)
    (hu : c.url L path = .ret (some u))
    (hbody : ∀ T, body ≠ .other T)
    (hreq : L.newRequest method (L.urlString u) = none)
    (hrt : c.hc.transport.rt (requestOf L ctx method u body) = .ok ⟨code, hdr, .ok b⟩)
    (hback : shouldRedirect code (requestOf L ctx method u body).bodyKind = false ∨
      L.location hdr = [] ∨ ∃ target, L.urlParse (L.location hdr) = .ok target)
    (hcode : code ≠ 200) :
    ∃ r, c.sendRequest L ctx method path body o = .ret r ∧
      r.err = some (("failed with status " ++ toString code ++ ": ").toUTF8.data.toList ++ b ++
        (" (Header: " ++ String.mk (L.fmtHeader hdr) ++ ")").toUTF8.data.toList) ∧
      r.dest = o ∧ (∀ x, Event.unmarshal x ∉ r.events) := by
  obtain ⟨ev, hne, hdo⟩ := do_response L c.hc _ _ hrt
  have hdo' : c.hc.Do L (requestOf L ctx method u body) = (.ok ⟨code, hdr, .ok b⟩, ev) := by
    rw [hdo]
    rcases hback with h | h | ⟨target, h⟩
    · simp [h]
    · simp [h]
    · simp only [h]
      split_ifs <;> rfl
  refine ⟨⟨_, o, ev⟩, ?_, congrArg some (statusError_text code b (L.fmtHeader hdr)), rfl, hne⟩
  rw [sendRequest_of_do L c ctx method path body o u hu hbody hreq, hdo']
  simp [hcode]

/-- C6, evaluated on the code: when the transport answers with a response
that asks for a redirect (status 301, 302 or 303, or 307 or 308 with a body
that can be sent again) and carries a `Location` header that `url.Parse`
rejects, `http.Client.Do` fails before `CheckRedirect` is consulted, and
`sendRequest` returns the `*url.Error` of `Do`, about the `Location` header,
in place of the status error with the status and the body; the destination
is unchanged and `json.Unmarshal` is not called. -/
theorem sendRequest_redirect_bad_location (L : Lib URL Values Logger Header Dest)
    (c : CableModem URL Logger Header) (ctx : Context Logger) (method path : GoString)
    (body : Body Values) (o : Dest) (u : URL) (code : Int) (hdr : Header) (b err : Bytes)
    (hu : c.url L path = .ret (some u))
    (hbody : ∀ T, body ≠ .other T)
    (hreq : L.newRequest method (L.urlString u) = none)
    (hrt : c.hc.transport.rt (requestOf L ctx method u body) = .ok ⟨code, hdr, .ok b⟩)
    (hredirect : shouldRedirect code (requestOf L ctx method u body).bodyKind = true)
    (hloc : L.location hdr ≠ [])
    (hparse : L.urlParse (L.location hdr) = .error err) :
    ∃ r, c.sendRequest L ctx method path body o = .ret r ∧
      r.err = some (L.urlError (requestOf L ctx method u body)
        (("failed to parse Location header " ++ String.mk (L.quote (L.location hdr)) ++ ": ").toUTF8.data.toList
          ++ err)) ∧
      r.dest = o ∧ (∀ x, Event.unmarshal x ∉ r.events) := by
  obtain ⟨ev, hne, hdo⟩ := do_response L c.hc _ _ hrt
  have htext : utf8 ("failed to parse Location header ".toList ++ L.quote (L.location hdr)
      ++ ": ".toList) =
      ("failed to parse Location header " ++ String.mk (L.quote (L.location hdr)) ++ ": ").toUTF8.data.toList := by
    rw [← utf8_toList]
    simp [String.toList]
  have hdo' : c.hc.Do L (requestOf L ctx method u body) =
      (.error (L.urlError (requestOf L ctx method u body)
        (("failed to parse Location header " ++ String.mk (L.quote (L.location hdr)) ++ ": ").toUTF8.data.toList
          ++ err)), ev) := by
    rw [hdo, ← htext]
    simp only [hredirect, hloc, ne_eq, not_false_eq_true, and_self, if_true, hparse]
  refine ⟨⟨_, o, ev⟩, ?_, rfl, rfl, hne⟩
  rw [sendRequest_of_do L c ctx method path body o u hu hbody hreq, hdo']

set_option maxRecDepth 100000 in
theorem sendRequest_redirect_bad_location_witness :
    ∃ r, redirectModem.sendRequest demoLib ⟨none⟩ "GET".toList "/x".toList (.reader .noBody []) ()
        = .ret r ∧
      r.err = some ("Get \"http://192.168.100.1/1/Device/x\": failed to parse Location header \"%zz\": parse \"%zz\": invalid URL escape \"%zz\"".toUTF8.data.toList) ∧
      r.err ≠ some (("failed with status " ++ toString (302 : Int) ++ ": ").toUTF8.data.toList ++
        "moved".toUTF8.data.toList ++ (" (Header: " ++ "map[Location:[%zz]]" ++ ")").toUTF8.data.toList) ∧
      r.dest = () := by
  obtain ⟨r, h1, h2, h3, -⟩ := sendRequest_redirect_bad_location demoLib redirectModem ⟨none⟩
    "GET".toList "/x".toList (.reader .noBody []) () "http://192.168.100.1/1/Device/x".toList 302
    "%zz".toList "moved".toUTF8.data.toList
    (utf8 "parse \"%zz\": invalid URL escape \"%zz\"".toList)
    rfl (by intro T h; cases h) rfl rfl (by decide) (by decide) rfl
  refine ⟨r, h1, ?_, ?_, h3⟩
  · rw [h2]
    decide
  · rw [h2]
    decide

set_option maxRecDepth 100000 in
theorem sendRequest_status_error_witness :
    ∃ r, demoModem.sendRequest demoLib ⟨none⟩ "GET".toList "/WiFi/Radios/1".toList
        (.reader .noBody []) () = .ret r ∧
      r.err = some ("failed with status 404: ".toUTF8.data.toList ++ [1, 2, 3] ++
        " (Header: map[])".toUTF8.data.toList) ∧
      r.dest = () := by
  obtain ⟨r, h1, h2, h3, -⟩ := sendRequest_status_error demoLib demoModem ⟨none⟩ "GET".toList
    "/WiFi/Radios/1".toList (.reader .noBody []) ()
    "http://192.168.100.1/1/Device/WiFi/Radios/1".toList 404 [] [1, 2, 3]
    rfl (by intro T h; cases h) rfl rfl (Or.inl (by decide)) (by decide)
  refine ⟨r, h1, ?_, h3⟩
  rw [h2]
  decide

/-- C9, evaluated on the code: for a request whose context carries no debug
logger and a transport that answers it, `RoundTrip` does not take the
direct-delegation branch: `debugLoggerFromContext` returns the no-op logger,
never nil, so the request and the response are both dumped and handed to
`Logf` around the underlying call. -/
theorem roundTrip_without_logger_dumps (L : Lib URL Values Logger Header Dest)
    (t : debugTransport Logger Header) (req : Request Logger) (resp : Response Header)
    (hctx : req.ctx.debugValue = none) (hrt : t.rt req = .ok resp) :
    debugLoggerFromContext req.ctx = some .noop ∧
    t.RoundTrip L req =
      (.ok resp,
        [.dumpRequest req, .logf .noop "request: %s".toList (L.dumpRequest req), .roundTrip req,
          .dumpResponse resp, .logf .noop "response: %s".toList (L.dumpResponse resp)]) ∧
    (t.RoundTrip L req).2 ≠ [.roundTrip req] := by
  have h : debugLoggerFromContext req.ctx = some .noop := by
    simp [debugLoggerFromContext, hctx]
  refine ⟨h, ?_, ?_⟩
  · simp [debugTransport.RoundTrip, h, hrt]
  · simp [debugTransport.RoundTrip, h, hrt]

theorem roundTrip_without_logger_dumps_witness :
    (demoTransport.RoundTrip demoLib ⟨⟨none⟩, "GET".toList, [], .noBody, [], none⟩).2 ≠
      [.roundTrip ⟨⟨none⟩, "GET".toList, [], .noBody, [], none⟩] :=
  (roundTrip_without_logger_dumps demoLib demoTransport
    ⟨⟨none⟩, "GET".toList, [], .noBody, [], none⟩ ⟨404, [], .ok [1, 2, 3]⟩ rfl rfl).2.2

end Client

end Hitron
